import Mathlib

set_option maxHeartbeats 1000000
set_option maxRecDepth 4000

/-!
Shallow embedding of the Sudoku solver in `src/main.rs`.

A `SudokuCell` is the `u16` bitmask of remaining candidate digits: bit `k`
(for `k < 16`, and in practice `k < 9`) stands for digit `k + 1`.  All machine
integers are modelled as `Nat`; every cell value the program ever builds is
below `2 ^ 16`, so `Nat` bitwise operations agree with the `u16` ones.
-/

abbrev SudokuCell := Nat

/-- `ALL_NUMS = (1 << 9) - 1`: every digit 1..9 possible. -/
def ALL_NUMS : Nat := (1 <<< 9) - 1

/-- `SudokuCell::new()`: the empty candidate set. -/
def SudokuCell.new : SudokuCell := 0

/-- `SudokuCell::new_all_set()`. -/
def SudokuCell.new_all_set : SudokuCell := ALL_NUMS

/-- `SudokuCell::set`: `self.0 |= 1 << (num - 1)`. -/
def SudokuCell.set (c : SudokuCell) (num : Nat) : SudokuCell :=
  c ||| (1 <<< (num - 1))

/-- `SudokuCell::unset`: `self.0 &= !(1 << (num - 1))` (`u16` complement). -/
def SudokuCell.unset (c : SudokuCell) (num : Nat) : SudokuCell :=
  c &&& ((2 ^ 16 - 1) ^^^ (1 <<< (num - 1)))

/-- `SudokuCell::clear`: `self.0 = 0`. -/
def SudokuCell.clear (_ : SudokuCell) : SudokuCell := 0

/-- `SudokuCell::get`: `(self.0 & (1 << (num - 1))) > 0`. -/
def SudokuCell.get (c : SudokuCell) (num : Nat) : Bool :=
  decide (0 < c &&& (1 <<< (num - 1)))

/-- `u16::count_ones` for values below `2 ^ 16`: the number of set bits
among bits 0..15. -/
def countOnes16 (n : Nat) : Nat :=
  ((List.range 16).filter (fun k => n.testBit k)).length

/-- `SudokuCell::size`: `self.0.count_ones()`. -/
def SudokuCell.size (c : SudokuCell) : Nat := countOnes16 c

/-- Bit-counting worker for `u16::trailing_zeros`: halve until the low bit is
set or the value runs out.  The structural fuel only bounds the halving depth;
17 turns cover every `u16` value. -/
def tzAux : Nat → Nat → Nat
  | 0, _ => 0
  | fuel + 1, n =>
    if n % 2 = 1 then 0
    else if n = 0 then 16
    else tzAux fuel (n / 2) + 1

/-- `u16::trailing_zeros` (16 on the value 0). -/
def trailingZeros16 (n : Nat) : Nat := tzAux 17 n

/-- `SudokuCell::get_first`: `self.0.trailing_zeros() + 1`. -/
def SudokuCell.get_first (c : SudokuCell) : Nat := trailingZeros16 c + 1

/-- `SudokuCell::remove_all`: `self.0 &= !other.0` (`u16` complement). -/
def SudokuCell.remove_all (c other : SudokuCell) : SudokuCell :=
  c &&& ((2 ^ 16 - 1) ^^^ other)

/-- The full yield sequence of `BitIterator(n, idx)`: positions (one-indexed,
counted from `idx`) of the set bits of `n`, from least significant upwards.
Each loop turn shifts `self.0` right once, increments `self.1`, and yields
`self.1` when the dropped bit was set. -/
def bitIterList (n idx : Nat) : List Nat :=
  if n = 0 then []
  else if n % 2 = 1 then (idx + 1) :: bitIterList (n / 2) (idx + 1)
  else bitIterList (n / 2) (idx + 1)
termination_by n
decreasing_by all_goals omega

/-- `SudokuCell::iter`: `BitIterator(self.0, 0)`. -/
def SudokuCell.iter (c : SudokuCell) : List Nat := bitIterList c 0

/-- The `PEERS` table entry for cell `i = 9*row + col`: row peers, then column
peers, then the four block cells sharing neither the row nor the column,
exactly in the construction order of the `lazy_static` initializer. -/
def PEERS (i : Nat) : List Nat :=
  let row := i / 9
  let col := i % 9
  (((List.range 9).filter (fun j => j ≠ col)).map (fun j => 9 * row + j)) ++
  (((List.range 9).filter (fun j => j ≠ row)).map (fun j => 9 * j + col)) ++
  (((List.range' (row / 3 * 3) 3).filter (fun br => br ≠ row)).flatMap (fun br =>
    ((List.range' (col / 3 * 3) 3).filter (fun bc => bc ≠ col)).map (fun bc =>
      9 * br + bc)))

abbrev SudokuBoard := List SudokuCell

/-- The local `peer_values` set built in `try_solve`'s propagation pass:
the union of `get_first` of every peer whose candidate count is 1. -/
def peer_values (b : SudokuBoard) (i : Nat) : SudokuCell :=
  (PEERS i).foldl (fun pv p =>
    let peer := b.getD p 0
    if SudokuCell.size peer = 1 then SudokuCell.set pv (SudokuCell.get_first peer)
    else pv) SudokuCell.new

/-- The updated cell of the subtraction step
`cell.remove_all(&peer_values)` at index `i`. -/
def passCell (b : SudokuBoard) (i : Nat) : SudokuCell :=
  SudokuCell.remove_all (b.getD i 0) (peer_values b i)

/-- One propagation pass of `try_solve` over the yet-unprocessed cell indices,
threading the board and the `made_progress` / `solved` flags.  `none` models
the early `return None` on an emptied cell. -/
def passGo (b : SudokuBoard) (mp sv : Bool) : List Nat → Option (SudokuBoard × Bool × Bool)
  | [] => some (b, mp, sv)
  | i :: rest =>
    if SudokuCell.size (b.getD i 0) = 1 then passGo b mp sv rest
    else
      if SudokuCell.size (passCell b i) = 0 then none
      else if SudokuCell.size (passCell b i) = 1 then
        passGo (b.set i (passCell b i)) true sv rest
      else passGo (b.set i (passCell b i)) mp false rest

/-- A full `for i in 0..81` pass with `made_progress = false`, `solved = true`
as at the top of the `while` body. -/
def runPass (b : SudokuBoard) : Option (SudokuBoard × Bool × Bool) :=
  passGo b false true (List.range 81)

/-- Total remaining ambiguity: the sum of all candidate counts. -/
def totalSize (b : SudokuBoard) : Nat := (b.map SudokuCell.size).sum

/-- The `while made_progress` loop, with explicit fuel (`none` = fuel ran out;
`some none` = conflict, i.e. the Rust `return None`; `some (some (b, sv))` =
loop exit with final board and `solved` flag).  Each refuelled turn is one
pass. -/
def propLoopF : Nat → SudokuBoard → Option (Option (SudokuBoard × Bool))
  | 0, _ => none
  | fuel + 1, b =>
    match runPass b with
    | none => some none
    | some (b2, mp, sv) => if mp then propLoopF fuel b2 else some (some (b2, sv))

/-- The propagation loop of `try_solve`.  `totalSize b + 1` turns of fuel
always suffice (each progressing pass strictly lowers `totalSize`, proved
below), so the `getD none` default is never taken. -/
def propagateLoop (b : SudokuBoard) : Option (SudokuBoard × Bool) :=
  (propLoopF (totalSize b + 1) b).getD none

/-- The smallest-candidate-cell scan of the search: starts from
`(smallest_cell, smallest_count) = (0, 9)` and updates whenever
`size > 1 && size < smallest_count`. -/
def findSmallest (b : SudokuBoard) : Nat × Nat :=
  (List.range 81).foldl (fun acc i =>
    if 1 < SudokuCell.size (b.getD i 0) ∧ SudokuCell.size (b.getD i 0) < acc.2
    then (i, SudokuCell.size (b.getD i 0)) else acc) (0, 9)

/-- The candidate loop of the search: for each trial value, clone the board,
clear-and-set the chosen cell, run `step` (the recursive solve); the first
solved clone is returned at once; when all values fail the loop falls through
to `None`.  The outer `none` propagates fuel exhaustion of `step`. -/
def searchCands (step : SudokuBoard → Option (Option SudokuBoard))
    (b : SudokuBoard) (sc : Nat) : List Nat → Option (Option SudokuBoard)
  | [] => some none
  | v :: vs =>
    match step (b.set sc (SudokuCell.set (SudokuCell.clear (b.getD sc 0)) v)) with
    | none => none
    | some (some sol) => some (some sol)
    | some none => searchCands step b sc vs

/-- `try_solve` with explicit recursion fuel: `none` = fuel ran out,
`some none` = `None` (unsolvable), `some (some b)` = `Some(b)`. -/
def trySolveF : Nat → SudokuBoard → Option (Option SudokuBoard)
  | 0, _ => none
  | fuel + 1, b =>
    match propagateLoop b with
    | none => some none
    | some (b2, sv) =>
      if sv then some (some b2)
      else
        searchCands (trySolveF fuel) b2 (findSmallest b2).1
          (SudokuCell.iter (b2.getD (findSmallest b2).1 0))

/-- `try_solve`: fuel `totalSize b + 1` always suffices (each recursive call
strictly lowers `totalSize`, proved below), so the default is never taken. -/
def try_solve (b : SudokuBoard) : Option SudokuBoard :=
  (trySolveF (totalSize b + 1) b).getD none

/-- `load_board`: scan the characters, push a full cell for `'0'`/`'.'`, a
singleton cell for `'1'`..`'9'`, ignore everything else; the Rust `panic!`
on a cell count other than 81 is modelled as `none`. -/
def load_board (s : List Char) : Option SudokuBoard :=
  let st := s.foldl (fun (acc : SudokuBoard × Nat) c =>
    if c = '0' ∨ c = '.' then (acc.1 ++ [SudokuCell.new_all_set], acc.2 + 1)
    else if c ∈ ['1', '2', '3', '4', '5', '6', '7', '8', '9'] then
      (acc.1 ++ [SudokuCell.set SudokuCell.new (c.toNat - 48)], acc.2 + 1)
    else acc) ([], 0)
  if st.2 = 81 then some st.1 else none

/-- `serialize_board`: for each of the 81 cells, the digit character of
`get_first` (`char::from_digit(val, 10)`). -/
def serialize_board (b : SudokuBoard) : List Char :=
  (List.range 81).map (fun i => Char.ofNat (SudokuCell.get_first (b.getD i 0) + 48))

/-- Cells `i` and `j` share a row, a column, or a 3×3 block (spec wording). -/
def sharesUnit (i j : Nat) : Prop :=
  i / 9 = j / 9 ∨ i % 9 = j % 9 ∨ (i / 9 / 3 = j / 9 / 3 ∧ i % 9 / 3 = j % 9 / 3)

instance (i j : Nat) : Decidable (sharesUnit i j) := by
  unfold sharesUnit; infer_instance

/-- No two peer cells are both fixed (candidate count 1) to the same digit. -/
def Consistent (b : SudokuBoard) : Prop :=
  ∀ i < 81, ∀ p ∈ PEERS i,
    SudokuCell.size (b.getD i 0) = 1 → SudokuCell.size (b.getD p 0) = 1 →
    SudokuCell.get_first (b.getD i 0) ≠ SudokuCell.get_first (b.getD p 0)

instance (b : SudokuBoard) : Decidable (Consistent b) := by
  unfold Consistent; infer_instance

/-- The data-model invariant of §3 of the spec: 81 cells, each a candidate
set over the nine digits (bits 0..8 only, i.e. value ≤ 511). -/
def BoardWF (b : SudokuBoard) : Prop :=
  b.length = 81 ∧ ∀ c ∈ b, c ≤ 511

/-- Spec wording for the codec: a character recognized as a cell. -/
def recognizedChar (c : Char) : Bool :=
  decide (c = '0' ∨ c = '.') || decide (c ∈ ['1', '2', '3', '4', '5', '6', '7', '8', '9'])

/-- Spec wording for the codec: the cell a recognized character denotes. -/
def charCell (c : Char) : SudokuCell :=
  if c = '0' ∨ c = '.' then SudokuCell.new_all_set
  else SudokuCell.set SudokuCell.new (c.toNat - 48)

/-! ### Bit-level helper lemmas about `SudokuCell` -/

lemma shiftLeft_one (k : Nat) : 1 <<< k = 2 ^ k := by
  simp [Nat.shiftLeft_eq]

lemma get_eq_testBit (c d : Nat) : SudokuCell.get c d = c.testBit (d - 1) := by
  unfold SudokuCell.get
  rw [shiftLeft_one, Nat.and_two_pow]
  cases h : c.testBit (d - 1) <;> simp [h, Nat.pos_pow_of_pos]

lemma countOnes16_eq_countP (n : Nat) :
    countOnes16 n = (List.range 16).countP (fun k => n.testBit k) := by
  rw [countOnes16, List.countP_eq_length_filter]

lemma countOnes16_mono {a b : Nat}
    (h : ∀ k, k < 16 → a.testBit k = true → b.testBit k = true) :
    countOnes16 a ≤ countOnes16 b := by
  rw [countOnes16_eq_countP, countOnes16_eq_countP]
  refine List.countP_mono_left ?_
  intro k hk
  exact h k (List.mem_range.mp hk)

lemma remove_all_testBit (c o k : Nat) (hk : k < 16) :
    (SudokuCell.remove_all c o).testBit k = (c.testBit k && !o.testBit k) := by
  unfold SudokuCell.remove_all
  rw [Nat.testBit_land, Nat.testBit_xor]
  have h16 : (2 ^ 16 - 1 : Nat).testBit k = true := by
    rw [Nat.testBit_two_pow_sub_one]; simpa using hk
  rw [h16]
  cases c.testBit k <;> cases o.testBit k <;> rfl

lemma remove_all_size_le (c o : Nat) :
    SudokuCell.size (SudokuCell.remove_all c o) ≤ SudokuCell.size c := by
  unfold SudokuCell.size
  refine countOnes16_mono ?_
  intro k hk h
  rw [remove_all_testBit c o k hk] at h
  exact (Bool.and_eq_true _ _ |>.mp h).1

lemma remove_all_subset (c o k : Nat)
    (h : (SudokuCell.remove_all c o).testBit k = true) : c.testBit k = true := by
  unfold SudokuCell.remove_all at h
  rw [Nat.testBit_land] at h
  exact (Bool.and_eq_true _ _ |>.mp h).1

lemma set_testBit (c n k : Nat) :
    (SudokuCell.set c n).testBit k = (c.testBit k || decide (n - 1 = k)) := by
  unfold SudokuCell.set
  rw [Nat.testBit_lor, shiftLeft_one, Nat.testBit_two_pow]

lemma tzAux_spec : ∀ k fuel n, k < fuel → (∀ j, j < k → n.testBit j = false) →
    n.testBit k = true → tzAux fuel n = k := by
  intro k
  induction k with
  | zero =>
    intro fuel n hf _ h0
    have hmod : n % 2 = 1 := by simpa using h0
    cases fuel with
    | zero => omega
    | succ fuel =>
      rw [tzAux]
      simp [hmod]
  | succ k ih =>
    intro fuel n hf hlow hk
    have h0 : n.testBit 0 = false := hlow 0 (Nat.succ_pos k)
    have hmod : ¬ n % 2 = 1 := by simpa using h0
    have hne : n ≠ 0 := by
      intro h; rw [h] at hk; simp [Nat.zero_testBit] at hk
    cases fuel with
    | zero => omega
    | succ fuel =>
      rw [tzAux]
      simp only [hmod, if_false, hne]
      have h2 : tzAux fuel (n / 2) = k := by
        refine ih fuel (n / 2) (by omega) ?_ ?_
        · intro j hj
          rw [Nat.testBit_div_two]
          exact hlow (j + 1) (by omega)
        · rw [Nat.testBit_div_two]; exact hk
      omega

lemma trailingZeros16_spec : ∀ k n, k < 16 → (∀ j, j < k → n.testBit j = false) →
    n.testBit k = true → trailingZeros16 n = k := by
  intro k n hk16 hlow hk
  exact tzAux_spec k 17 n (by omega) hlow hk

lemma singleton_spec {c : Nat} (h : SudokuCell.size c = 1) :
    ∃ k, k < 16 ∧ c.testBit k = true ∧ (∀ j, j < 16 → c.testBit j = true → j = k) ∧
      SudokuCell.get_first c = k + 1 := by
  unfold SudokuCell.size countOnes16 at h
  obtain ⟨k, hk⟩ := List.length_eq_one.mp h
  have hkmem : k ∈ (List.range 16).filter (fun j => c.testBit j) := by rw [hk]; simp
  rw [List.mem_filter, List.mem_range] at hkmem
  have huniq : ∀ j, j < 16 → c.testBit j = true → j = k := by
    intro j hj hbit
    have : j ∈ (List.range 16).filter (fun j => c.testBit j) := by
      rw [List.mem_filter, List.mem_range]; exact ⟨hj, by simpa using hbit⟩
    rw [hk] at this; simpa using this
  refine ⟨k, hkmem.1, by simpa using hkmem.2, huniq, ?_⟩
  unfold SudokuCell.get_first
  rw [trailingZeros16_spec k c hkmem.1 ?_ (by simpa using hkmem.2)]
  intro j hj
  by_contra hbit
  rw [Bool.not_eq_false] at hbit
  have hj16 : j < 16 := lt_trans hj hkmem.1
  exact absurd (huniq j hj16 hbit) (by omega)

lemma singleton_get_first_mem {c : Nat} (h : SudokuCell.size c = 1) :
    c.testBit (SudokuCell.get_first c - 1) = true := by
  obtain ⟨k, _, hbit, _, hgf⟩ := singleton_spec h
  rw [hgf]; simpa using hbit

lemma set_clear_eq (c v : Nat) :
    SudokuCell.set (SudokuCell.clear c) v = 2 ^ (v - 1) := by
  unfold SudokuCell.set SudokuCell.clear
  rw [shiftLeft_one]
  exact Nat.zero_or _

lemma size_two_pow {k : Nat} (hk : k < 16) : SudokuCell.size (2 ^ k) = 1 := by
  interval_cases k <;> decide

lemma get_first_two_pow {v : Nat} (hv : 1 ≤ v) (hv16 : v ≤ 16) :
    SudokuCell.get_first (2 ^ (v - 1)) = v := by
  unfold SudokuCell.get_first
  rw [trailingZeros16_spec (v - 1) _ (by omega) ?_ Nat.testBit_two_pow_self]
  · omega
  · intro j hj
    rw [Nat.testBit_two_pow]
    simpa using (by omega : ¬ v - 1 = j)

/-! ### The bit iterator -/

lemma bitIterList_mem : ∀ n idx x, x ∈ bitIterList n idx ↔
    ∃ k, n.testBit k = true ∧ x = idx + k + 1 := by
  intro n
  induction n using Nat.strong_induction_on with
  | _ n ih =>
    intro idx x
    rw [bitIterList]
    by_cases h0 : n = 0
    · simp [h0, Nat.zero_testBit]
    · simp only [h0, if_false]
      by_cases h1 : n % 2 = 1
      · simp only [h1, if_true, List.mem_cons]
        rw [ih (n / 2) (by omega) (idx + 1) x]
        constructor
        · rintro (rfl | ⟨k, hk, rfl⟩)
          · exact ⟨0, by simpa using h1, by omega⟩
          · exact ⟨k + 1, by rwa [Nat.testBit_succ], by omega⟩
        · rintro ⟨k, hk, rfl⟩
          cases k with
          | zero => left; omega
          | succ k => right; exact ⟨k, by rwa [← Nat.testBit_succ], by omega⟩
      · simp only [h1, if_false]
        rw [ih (n / 2) (by omega) (idx + 1) x]
        constructor
        · rintro ⟨k, hk, rfl⟩
          exact ⟨k + 1, by rwa [Nat.testBit_succ], by omega⟩
        · rintro ⟨k, hk, rfl⟩
          cases k with
          | zero => exact absurd (by simpa using hk) h1
          | succ k => exact ⟨k, by rwa [← Nat.testBit_succ], by omega⟩

lemma iter_mem (c v : Nat) : v ∈ SudokuCell.iter c ↔
    (1 ≤ v ∧ c.testBit (v - 1) = true) := by
  unfold SudokuCell.iter
  rw [bitIterList_mem]
  constructor
  · rintro ⟨k, hk, rfl⟩; exact ⟨by omega, by simpa using hk⟩
  · rintro ⟨h1, hbit⟩; exact ⟨v - 1, hbit, by omega⟩

lemma bitIterList_pairwise : ∀ n idx, List.Pairwise (· < ·) (bitIterList n idx) := by
  intro n
  induction n using Nat.strong_induction_on with
  | _ n ih =>
    intro idx
    rw [bitIterList]
    by_cases h0 : n = 0
    · simp [h0]
    · simp only [h0, if_false]
      by_cases h1 : n % 2 = 1
      · simp only [h1, if_true]
        refine List.pairwise_cons.mpr ⟨?_, ih (n / 2) (by omega) (idx + 1)⟩
        intro x hx
        obtain ⟨k, _, rfl⟩ := (bitIterList_mem (n / 2) (idx + 1) x).mp hx
        omega
      · simp only [h1, if_false]
        exact ih (n / 2) (by omega) (idx + 1)

lemma iter_sorted (c : Nat) : List.Pairwise (· < ·) (SudokuCell.iter c) :=
  bitIterList_pairwise c 0

lemma iter_le_nine {c v : Nat} (hc : c ≤ 511) (hv : v ∈ SudokuCell.iter c) :
    1 ≤ v ∧ v ≤ 9 := by
  obtain ⟨h1, hbit⟩ := (iter_mem c v).mp hv
  refine ⟨h1, ?_⟩
  by_contra h
  have : c.testBit (v - 1) = false :=
    Nat.testBit_lt_two_pow (lt_of_le_of_lt hc (by
      calc (511 : Nat) < 2 ^ 9 := by norm_num
      _ ≤ 2 ^ (v - 1) := Nat.pow_le_pow_right (by norm_num) (by omega)))
  rw [this] at hbit; exact Bool.false_ne_true hbit

/-! ### The peer table -/

set_option maxHeartbeats 4000000 in
lemma peers_spec : ∀ i < 81, (PEERS i).length = 20 ∧ (PEERS i).Nodup ∧
    (∀ j ∈ PEERS i, j < 81 ∧ j ≠ i ∧ sharesUnit i j) ∧
    (∀ j < 81, j ≠ i → sharesUnit i j → j ∈ PEERS i) := by decide

lemma sharesUnit_symm {i j : Nat} (h : sharesUnit i j) : sharesUnit j i := by
  unfold sharesUnit at h ⊢
  rcases h with h | h | ⟨h1, h2⟩
  · exact Or.inl h.symm
  · exact Or.inr (Or.inl h.symm)
  · exact Or.inr (Or.inr ⟨h1.symm, h2.symm⟩)

lemma peers_mem_iff {i j : Nat} (hi : i < 81) :
    j ∈ PEERS i ↔ (j < 81 ∧ j ≠ i ∧ sharesUnit i j) := by
  constructor
  · exact fun h => (peers_spec i hi).2.2.1 j h
  · rintro ⟨h1, h2, h3⟩
    exact (peers_spec i hi).2.2.2 j h1 h2 h3

lemma peers_symm {i j : Nat} (hi : i < 81) (hj : j < 81) (h : j ∈ PEERS i) :
    i ∈ PEERS j := by
  obtain ⟨_, hne, hsh⟩ := (peers_mem_iff hi).mp h
  exact (peers_mem_iff hj).mpr ⟨hi, fun e => hne e.symm, sharesUnit_symm hsh⟩

lemma peers_lt {i j : Nat} (hi : i < 81) (h : j ∈ PEERS i) : j < 81 :=
  ((peers_mem_iff hi).mp h).1

lemma peers_ne {i j : Nat} (hi : i < 81) (h : j ∈ PEERS i) : j ≠ i :=
  ((peers_mem_iff hi).mp h).2.1

/-! ### Board indexing helpers -/

lemma getD_set_self {b : SudokuBoard} {i : Nat} (h : i < b.length) (c : SudokuCell) :
    (b.set i c).getD i 0 = c := by
  rw [List.getD_eq_getElem?_getD, List.getElem?_set_self (by simpa using h)]
  rfl

lemma getD_set_ne {b : SudokuBoard} {i j : Nat} (h : j ≠ i) (c : SudokuCell) :
    (b.set i c).getD j 0 = b.getD j 0 := by
  rw [List.getD_eq_getElem?_getD, List.getD_eq_getElem?_getD,
    List.getElem?_set_ne (fun e => h e.symm)]

lemma sum_set {l : List Nat} : ∀ {i : Nat}, i < l.length → ∀ x,
    (l.set i x).sum + l.getD i 0 = l.sum + x := by
  induction l with
  | nil => intro i h; simp at h
  | cons a l ih =>
    intro i h x
    cases i with
    | zero => simp [List.set]; omega
    | succ i =>
      simp only [List.set, List.sum_cons, List.getD_cons_succ]
      have := ih (by simpa using h) x
      omega

lemma getD_map_size {b : SudokuBoard} {i : Nat} (h : i < b.length) :
    (b.map SudokuCell.size).getD i 0 = SudokuCell.size (b.getD i 0) := by
  rw [List.getD_eq_getElem?_getD, List.getD_eq_getElem?_getD,
    List.getElem?_eq_getElem h, List.getElem?_eq_getElem (by simpa using h)]
  simp

lemma totalSize_set {b : SudokuBoard} {i : Nat} (h : i < b.length) (c : SudokuCell) :
    totalSize (b.set i c) + SudokuCell.size (b.getD i 0) = totalSize b + SudokuCell.size c := by
  unfold totalSize
  rw [List.map_set]
  have := sum_set (l := b.map SudokuCell.size) (i := i) (by simpa using h) (SudokuCell.size c)
  rw [getD_map_size h] at this
  exact this

/-! ### Characterizing `peer_values` -/

lemma size_zero_iff {c : Nat} : SudokuCell.size c = 0 ↔ ∀ k, k < 16 → c.testBit k = false := by
  unfold SudokuCell.size countOnes16
  rw [List.length_eq_zero, List.filter_eq_nil_iff]
  constructor
  · intro h k hk
    simpa using h k (List.mem_range.mpr hk)
  · intro h k hk
    simpa using h k (List.mem_range.mp hk)

lemma size_zero_cell : SudokuCell.size 0 = 0 := by decide

lemma getD_oob {b : SudokuBoard} {i : Nat} (h : b.length ≤ i) : b.getD i 0 = 0 := by
  rw [List.getD_eq_getElem?_getD, List.getElem?_eq_none (by simpa using h)]
  rfl

lemma in_range_of_size_ne_zero {b : SudokuBoard} {i : Nat}
    (h : SudokuCell.size (b.getD i 0) ≠ 0) : i < b.length := by
  by_contra hlen
  rw [getD_oob (by omega)] at h
  exact h size_zero_cell

lemma get_first_pos (c : Nat) : 1 ≤ SudokuCell.get_first c := by
  unfold SudokuCell.get_first; omega

lemma peer_values_testBit (b : SudokuBoard) (i : Nat) :
    ∀ k, k < 16 → ((peer_values b i).testBit k = true ↔
      ∃ p ∈ PEERS i, SudokuCell.size (b.getD p 0) = 1 ∧
        SudokuCell.get_first (b.getD p 0) = k + 1) := by
  unfold peer_values
  suffices h : ∀ (L : List Nat) (acc : Nat) k, k < 16 →
      ((L.foldl (fun pv p =>
        if SudokuCell.size (b.getD p 0) = 1
        then SudokuCell.set pv (SudokuCell.get_first (b.getD p 0)) else pv) acc).testBit k = true ↔
      (acc.testBit k = true ∨ ∃ p ∈ L, SudokuCell.size (b.getD p 0) = 1 ∧
        SudokuCell.get_first (b.getD p 0) = k + 1)) by
    intro k hk
    rw [h (PEERS i) SudokuCell.new k hk]
    unfold SudokuCell.new
    simp [Nat.zero_testBit]
  intro L
  induction L with
  | nil => intro acc k _; simp
  | cons p L ih =>
    intro acc k hk
    simp only [List.foldl_cons]
    by_cases hp : SudokuCell.size (b.getD p 0) = 1
    · rw [if_pos hp, ih _ k hk, set_testBit]
      constructor
      · rintro (h | h)
        · rcases Bool.or_eq_true _ _ |>.mp h with h | h
          · exact Or.inl h
          · refine Or.inr ⟨p, List.mem_cons_self _ _, hp, ?_⟩
            have := of_decide_eq_true h
            have := get_first_pos (b.getD p 0)
            omega
        · obtain ⟨q, hq, hq1, hq2⟩ := h
          exact Or.inr ⟨q, List.mem_cons_of_mem _ hq, hq1, hq2⟩
      · rintro (h | ⟨q, hq, hq1, hq2⟩)
        · exact Or.inl (by rw [h]; simp)
        · rcases List.mem_cons.mp hq with rfl | hq'
          · refine Or.inl ?_
            rw [Bool.or_eq_true]
            exact Or.inr (decide_eq_true (by omega))
          · exact Or.inr ⟨q, hq', hq1, hq2⟩
    · rw [if_neg hp, ih _ k hk]
      constructor
      · rintro (h | ⟨q, hq, hq1, hq2⟩)
        · exact Or.inl h
        · exact Or.inr ⟨q, List.mem_cons_of_mem _ hq, hq1, hq2⟩
      · rintro (h | ⟨q, hq, hq1, hq2⟩)
        · exact Or.inl h
        · rcases List.mem_cons.mp hq with rfl | hq'
          · exact absurd hq1 hp
          · exact Or.inr ⟨q, hq', hq1, hq2⟩

/-- The key elimination fact: after the subtraction step, the digit of any
peer that was fixed at that moment is absent from the updated cell. -/
lemma remove_all_kills_peer {b : SudokuBoard} {i p : Nat} (hp : p ∈ PEERS i)
    (h1 : SudokuCell.size (b.getD p 0) = 1) :
    (SudokuCell.remove_all (b.getD i 0) (peer_values b i)).testBit
      (SudokuCell.get_first (b.getD p 0) - 1) = false := by
  obtain ⟨k, hk16, _, _, hgf⟩ := singleton_spec h1
  have hk : SudokuCell.get_first (b.getD p 0) - 1 = k := by omega
  rw [hk, remove_all_testBit _ _ _ hk16]
  have : (peer_values b i).testBit k = true :=
    (peer_values_testBit b i k hk16).mpr ⟨p, hp, h1, by omega⟩
  rw [this]
  simp

/-! ### Invariants of one propagation pass -/

lemma passCell_kills_peer {b : SudokuBoard} {i p : Nat} (hp : p ∈ PEERS i)
    (h1 : SudokuCell.size (b.getD p 0) = 1) :
    (passCell b i).testBit (SudokuCell.get_first (b.getD p 0) - 1) = false :=
  remove_all_kills_peer hp h1

lemma passCell_subset {b : SudokuBoard} {i k : Nat}
    (h : (passCell b i).testBit k = true) : (b.getD i 0).testBit k = true :=
  remove_all_subset _ _ _ h

lemma passCell_size_le (b : SudokuBoard) (i : Nat) :
    SudokuCell.size (passCell b i) ≤ SudokuCell.size (b.getD i 0) :=
  remove_all_size_le _ _

lemma passCell_in_range {b : SudokuBoard} {i : Nat}
    (h : SudokuCell.size (passCell b i) ≠ 0) : i < b.length := by
  refine in_range_of_size_ne_zero (fun hz => h ?_)
  rw [size_zero_iff] at hz ⊢
  intro k hk
  by_contra hb
  rw [Bool.not_eq_false] at hb
  have := passCell_subset hb
  rw [hz k hk] at this
  exact Bool.false_ne_true this

lemma passGo_frame : ∀ (l : List Nat) (b : SudokuBoard) (mp sv : Bool) {b' : SudokuBoard}
    {mp' sv' : Bool}, passGo b mp sv l = some (b', mp', sv') →
    b'.length = b.length ∧ ∀ j, j ∉ l → b'.getD j 0 = b.getD j 0 := by
  intro l
  induction l with
  | nil =>
    intro b mp sv b' mp' sv' h
    rw [passGo] at h
    injection h with h
    injection h with h1 h2
    subst h1
    exact ⟨rfl, fun _ _ => rfl⟩
  | cons i rest ih =>
    intro b mp sv b' mp' sv' h
    rw [passGo] at h
    split_ifs at h with h1 h2 h3
    · obtain ⟨hlen, hfr⟩ := ih b mp sv h
      exact ⟨hlen, fun j hj => hfr j (fun hx => hj (List.mem_cons_of_mem _ hx))⟩
    · obtain ⟨hlen, hfr⟩ := ih _ true sv h
      refine ⟨by simpa using hlen, fun j hj => ?_⟩
      have hji : j ≠ i := fun e => hj (e ▸ List.mem_cons_self i rest)
      rw [hfr j (fun hx => hj (List.mem_cons_of_mem _ hx)), getD_set_ne hji]
    · obtain ⟨hlen, hfr⟩ := ih _ mp false h
      refine ⟨by simpa using hlen, fun j hj => ?_⟩
      have hji : j ≠ i := fun e => hj (e ▸ List.mem_cons_self i rest)
      rw [hfr j (fun hx => hj (List.mem_cons_of_mem _ hx)), getD_set_ne hji]

lemma passGo_mp_mono : ∀ (l : List Nat) (b : SudokuBoard) (sv : Bool) {b' : SudokuBoard}
    {mp' sv' : Bool}, passGo b true sv l = some (b', mp', sv') → mp' = true := by
  intro l
  induction l with
  | nil =>
    intro b sv b' mp' sv' h
    rw [passGo] at h
    injection h with h
    injection h with _ h
    injection h with h _
    exact h.symm
  | cons i rest ih =>
    intro b sv b' mp' sv' h
    rw [passGo] at h
    split_ifs at h with h1 h2 h3
    · exact ih b sv h
    · exact ih _ sv h
    · exact ih _ false h

/-- A cell that is already fixed is never modified by the rest of the pass. -/
lemma passGo_fixed_stay : ∀ (l : List Nat) (b : SudokuBoard) (mp sv : Bool)
    {b' : SudokuBoard} {mp' sv' : Bool}, passGo b mp sv l = some (b', mp', sv') →
    ∀ j, SudokuCell.size (b.getD j 0) = 1 → b'.getD j 0 = b.getD j 0 := by
  intro l
  induction l with
  | nil =>
    intro b mp sv b' mp' sv' h j hj
    rw [passGo] at h
    injection h with h
    injection h with h1 _
    subst h1
    rfl
  | cons i rest ih =>
    intro b mp sv b' mp' sv' h j hj
    rw [passGo] at h
    split_ifs at h with h1 h2 h3
    · exact ih b mp sv h j hj
    · have hji : j ≠ i := by
        intro e; subst e; exact h1 hj
      rw [ih _ true sv h j (by rwa [getD_set_ne hji]), getD_set_ne hji]
    · have hji : j ≠ i := by
        intro e; subst e; exact h1 hj
      rw [ih _ mp false h j (by rwa [getD_set_ne hji]), getD_set_ne hji]

/-- In a pass whose `made_progress` flag starts and ends `false`, every cell
that is fixed afterwards was already fixed (with the same value) before. -/
lemma passGo_no_new_fixed : ∀ (l : List Nat) (b : SudokuBoard) (sv : Bool)
    {b' : SudokuBoard} {sv' : Bool}, passGo b false sv l = some (b', false, sv') →
    ∀ j, SudokuCell.size (b'.getD j 0) = 1 → b'.getD j 0 = b.getD j 0 := by
  intro l
  induction l with
  | nil =>
    intro b sv b' sv' h j hj
    rw [passGo] at h
    injection h with h
    injection h with h1 _
    subst h1
    rfl
  | cons i rest ih =>
    intro b sv b' sv' h j hj
    rw [passGo] at h
    split_ifs at h with h1 h2 h3
    · exact ih b sv h j hj
    · exact absurd (passGo_mp_mono rest _ sv h) (by simp)
    · by_cases hji : j = i
      · subst hji
        have hb' : b'.getD j 0 = passCell b j := by
          have := ih _ false h j hj
          rwa [getD_set_self (passCell_in_range h2) _] at this
        rw [hb'] at hj
        omega
      · rw [ih _ false h j hj, getD_set_ne hji]

lemma passCell_le (b : SudokuBoard) (i : Nat) : passCell b i ≤ b.getD i 0 :=
  Nat.and_le_left

lemma getD_mem {b : SudokuBoard} {i : Nat} (h : i < b.length) : b.getD i 0 ∈ b := by
  rw [List.getD_eq_getElem?_getD, List.getElem?_eq_getElem h]
  exact List.getElem_mem h

/-- The pass never increases the total ambiguity, and a pass step that turns
the `made_progress` flag on strictly decreases it. -/
lemma passGo_totalSize : ∀ (l : List Nat) (b : SudokuBoard) (mp sv : Bool)
    {b' : SudokuBoard} {mp' sv' : Bool}, passGo b mp sv l = some (b', mp', sv') →
    totalSize b' ≤ totalSize b ∧
      (mp' = true → mp = true ∨ totalSize b' < totalSize b) := by
  intro l
  induction l with
  | nil =>
    intro b mp sv b' mp' sv' h
    rw [passGo] at h
    injection h with h
    injection h with h1 h2
    subst h1
    injection h2 with h2 _
    subst h2
    exact ⟨le_refl _, fun h => Or.inl h⟩
  | cons i rest ih =>
    intro b mp sv b' mp' sv' h
    rw [passGo] at h
    split_ifs at h with h1 h2 h3
    · exact ih b mp sv h
    · have hrange : i < b.length := passCell_in_range h2
      have hge2 : 2 ≤ SudokuCell.size (b.getD i 0) := by
        have := passCell_size_le b i
        omega
      have hts := totalSize_set hrange (passCell b i)
      have hlt : totalSize (b.set i (passCell b i)) < totalSize b := by omega
      obtain ⟨hle, _⟩ := ih _ true sv h
      exact ⟨le_of_lt (lt_of_le_of_lt hle hlt), fun _ => Or.inr (lt_of_le_of_lt hle hlt)⟩
    · have hrange : i < b.length := passCell_in_range h2
      have hle1 : SudokuCell.size (passCell b i) ≤ SudokuCell.size (b.getD i 0) :=
        passCell_size_le b i
      have hts := totalSize_set hrange (passCell b i)
      have hle2 : totalSize (b.set i (passCell b i)) ≤ totalSize b := by omega
      obtain ⟨hle, hstr⟩ := ih _ mp false h
      refine ⟨le_trans hle hle2, fun hmp => ?_⟩
      rcases hstr hmp with h | h
      · exact Or.inl h
      · exact Or.inr (lt_of_lt_of_le h hle2)

/-- The pass keeps every cell inside the nine-digit universe. -/
lemma passGo_wf : ∀ (l : List Nat) (b : SudokuBoard) (mp sv : Bool)
    {b' : SudokuBoard} {mp' sv' : Bool}, passGo b mp sv l = some (b', mp', sv') →
    (∀ c ∈ b, c ≤ 511) → ∀ c ∈ b', c ≤ 511 := by
  intro l
  induction l with
  | nil =>
    intro b mp sv b' mp' sv' h hwf
    rw [passGo] at h
    injection h with h
    injection h with h1 _
    subst h1
    exact hwf
  | cons i rest ih =>
    intro b mp sv b' mp' sv' h hwf
    rw [passGo] at h
    have hset : ∀ (h2 : ¬ SudokuCell.size (passCell b i) = 0) (c : SudokuCell),
        c ∈ b.set i (passCell b i) → c ≤ 511 := by
      intro h2 c hc
      rcases List.mem_or_eq_of_mem_set hc with hc | rfl
      · exact hwf c hc
      · have hrange : i < b.length := passCell_in_range h2
        exact le_trans (passCell_le b i) (hwf _ (getD_mem hrange))
    split_ifs at h with h1 h2 h3
    · exact ih b mp sv h hwf
    · exact ih _ true sv h (hset h2)
    · exact ih _ mp false h (hset h2)

/-- Stall invariant: after a pass that made no progress, every still-ambiguous
cell's candidate set excludes the digit of each of its fixed peers. -/
lemma passGo_stall : ∀ (l : List Nat) (b : SudokuBoard) (sv : Bool) {b' : SudokuBoard}
    {sv' : Bool}, passGo b false sv l = some (b', false, sv') → (∀ i ∈ l, i < 81) →
    ∀ i ∈ l, 2 ≤ SudokuCell.size (b'.getD i 0) →
    ∀ p ∈ PEERS i, SudokuCell.size (b'.getD p 0) = 1 →
    (b'.getD i 0).testBit (SudokuCell.get_first (b'.getD p 0) - 1) = false := by
  intro l
  induction l with
  | nil => intro b sv b' sv' _ _ i hi; simp at hi
  | cons i0 rest ih =>
    intro b sv b' sv' h hlt i hi h2i p hp hsp
    rw [passGo] at h
    split_ifs at h with h1 h2 h3
    · rcases List.mem_cons.mp hi with rfl | hi'
      · have := passGo_fixed_stay rest b false sv h i h1
        rw [this] at h2i
        omega
      · exact ih b sv h (fun j hj => hlt j (List.mem_cons_of_mem _ hj)) i hi' h2i p hp hsp
    · exact absurd (passGo_mp_mono rest _ sv h) (by simp)
    · rcases List.mem_cons.mp hi with rfl | hi'
      · by_cases hmem : i ∈ rest
        · exact ih _ false h (fun j hj => hlt j (List.mem_cons_of_mem _ hj)) i hmem h2i p hp hsp
        · have hi81 : i < 81 := hlt i (List.mem_cons_self _ _)
          have hrange : i < b.length := passCell_in_range h2
          have hbi : b'.getD i 0 = passCell b i := by
            rw [(passGo_frame rest _ false false h).2 i hmem, getD_set_self hrange]
          have hpne : p ≠ i := peers_ne hi81 hp
          have hbp : b'.getD p 0 = b.getD p 0 := by
            rw [passGo_no_new_fixed rest _ false h p hsp, getD_set_ne hpne]
          rw [hbi, hbp]
          rw [hbp] at hsp
          exact passCell_kills_peer hp hsp
      · exact ih _ false h (fun j hj => hlt j (List.mem_cons_of_mem _ hj)) i hi' h2i p hp hsp

/-- The `solved` flag of a no-progress pass is exactly "the flag came in true
and every processed cell ends fixed". -/
lemma passGo_solved : ∀ (l : List Nat) (b : SudokuBoard) (mp sv : Bool) {b' : SudokuBoard}
    {sv' : Bool}, passGo b mp sv l = some (b', false, sv') →
    (sv' = true ↔ (sv = true ∧ ∀ i ∈ l, SudokuCell.size (b'.getD i 0) = 1)) := by
  intro l
  induction l with
  | nil =>
    intro b mp sv b' sv' h
    rw [passGo] at h
    injection h with h
    injection h with h1 h2
    subst h1
    injection h2 with _ h2
    subst h2
    simp
  | cons i0 rest ih =>
    intro b mp sv b' sv' h
    rw [passGo] at h
    split_ifs at h with h1 h2 h3
    · have hi0 : SudokuCell.size (b'.getD i0 0) = 1 := by
        rw [passGo_fixed_stay rest b mp sv h i0 h1]; exact h1
      rw [ih b mp sv h]
      constructor
      · rintro ⟨hsv, hall⟩
        exact ⟨hsv, fun i hi => by
          rcases List.mem_cons.mp hi with rfl | hi'
          · exact hi0
          · exact hall i hi'⟩
      · rintro ⟨hsv, hall⟩
        exact ⟨hsv, fun i hi => hall i (List.mem_cons_of_mem _ hi)⟩
    · exact absurd (passGo_mp_mono rest _ sv h) (by simp)
    · have hsv' : sv' = false := by
        cases hsv : sv' with
        | false => rfl
        | true =>
          have := (ih _ mp false h).mp hsv
          exact absurd this.1 (by simp)
      rw [hsv']
      constructor
      · intro hfalse; exact absurd hfalse (by simp)
      · rintro ⟨_, hall⟩
        have hfix := hall i0 (List.mem_cons_self _ _)
        have hmpf : mp = false := by
          cases hmp : mp with
          | false => rfl
          | true =>
            rw [hmp] at h
            exact absurd (passGo_mp_mono rest _ false h) (by simp)
        rw [hmpf] at h
        have := passGo_no_new_fixed rest _ false h i0 hfix
        rw [getD_set_self (passCell_in_range h2) _] at this
        rw [this] at hfix
        exact absurd hfix h3

/-- One pass preserves peer-consistency of the fixed cells. -/
lemma passGo_consistent : ∀ (l : List Nat) (b : SudokuBoard) (mp sv : Bool)
    {b' : SudokuBoard} {mp' sv' : Bool}, passGo b mp sv l = some (b', mp', sv') →
    (∀ i ∈ l, i < 81) → Consistent b → Consistent b' := by
  intro l
  induction l with
  | nil =>
    intro b mp sv b' mp' sv' h _ hc
    rw [passGo] at h
    injection h with h
    injection h with h1 _
    subst h1
    exact hc
  | cons i0 rest ih =>
    intro b mp sv b' mp' sv' h hlt hc
    rw [passGo] at h
    have hstep : ∀ (h2 : ¬ SudokuCell.size (passCell b i0) = 0),
        Consistent (b.set i0 (passCell b i0)) := by
      intro h2
      have hi081 : i0 < 81 := hlt i0 (List.mem_cons_self _ _)
      have hrange : i0 < b.length := passCell_in_range h2
      intro x hx p hp hsx hsp
      by_cases hxi : x = i0
      · subst hxi
        have hpne : p ≠ x := peers_ne hx hp
        rw [getD_set_self hrange] at hsx ⊢
        rw [getD_set_ne hpne] at hsp ⊢
        intro heq
        have hkill := passCell_kills_peer hp hsp
        have hmem := singleton_get_first_mem hsx
        rw [heq] at hmem
        rw [hmem] at hkill
        exact absurd hkill (by simp)
      · by_cases hpi : p = i0
        · subst hpi
          rw [getD_set_ne hxi] at hsx ⊢
          rw [getD_set_self hrange] at hsp ⊢
          have hxp : x ∈ PEERS p := peers_symm hx hi081 hp
          intro heq
          have hkill := passCell_kills_peer hxp hsx
          have hmem := singleton_get_first_mem hsp
          rw [← heq] at hmem
          rw [hmem] at hkill
          exact absurd hkill (by simp)
        · rw [getD_set_ne hxi] at hsx ⊢
          rw [getD_set_ne hpi] at hsp ⊢
          exact hc x hx p hp hsx hsp
    split_ifs at h with h1 h2 h3
    · exact ih b mp sv h (fun j hj => hlt j (List.mem_cons_of_mem _ hj)) hc
    · exact ih _ true sv h (fun j hj => hlt j (List.mem_cons_of_mem _ hj)) (hstep h2)
    · exact ih _ mp false h (fun j hj => hlt j (List.mem_cons_of_mem _ hj)) (hstep h2)

/-- The pass only ever removes candidates (pointwise bitwise subset). -/
lemma passGo_subset : ∀ (l : List Nat) (b : SudokuBoard) (mp sv : Bool)
    {b' : SudokuBoard} {mp' sv' : Bool}, passGo b mp sv l = some (b', mp', sv') →
    ∀ j k, (b'.getD j 0).testBit k = true → (b.getD j 0).testBit k = true := by
  intro l
  induction l with
  | nil =>
    intro b mp sv b' mp' sv' h j k
    rw [passGo] at h
    injection h with h
    injection h with h1 _
    subst h1
    exact id
  | cons i rest ih =>
    intro b mp sv b' mp' sv' h j k hk
    rw [passGo] at h
    have hstep : ∀ (mp1 sv1 : Bool),
        passGo (b.set i (passCell b i)) mp1 sv1 rest = some (b', mp', sv') →
        (b.getD j 0).testBit k = true := by
      intro mp1 sv1 hrun
      have h2 := ih _ mp1 sv1 hrun j k hk
      by_cases hji : j = i
      · subst hji
        by_cases hrange : j < b.length
        · rw [getD_set_self hrange] at h2
          exact passCell_subset h2
        · rw [List.set_eq_of_length_le (by omega)] at h2
          exact h2
      · rwa [getD_set_ne hji] at h2
    split_ifs at h with h1 h2 h3
    · exact ih b mp sv h j k hk
    · exact hstep true sv h
    · exact hstep mp false h

/-! ### The propagation loop -/

lemma propLoopF_ne_none : ∀ (f : Nat) (b : SudokuBoard), totalSize b < f →
    propLoopF f b ≠ none := by
  intro f
  induction f with
  | zero => intro b h; omega
  | succ f ih =>
    intro b hf
    rw [propLoopF]
    cases hrp : runPass b with
    | none => simp
    | some r =>
      obtain ⟨b2, mp, sv⟩ := r
      cases mp with
      | false => simp
      | true =>
        simp only [if_true]
        have := passGo_totalSize (List.range 81) b false true hrp
        have hlt : totalSize b2 < totalSize b := by
          rcases this.2 rfl with h | h
          · exact absurd h (by simp)
          · exact h
        exact ih b2 (by omega)

lemma propLoopF_eq_propagateLoop (b : SudokuBoard) :
    propLoopF (totalSize b + 1) b = some (propagateLoop b) := by
  cases h : propLoopF (totalSize b + 1) b with
  | none => exact absurd h (propLoopF_ne_none _ b (by omega))
  | some r =>
    unfold propagateLoop
    rw [h]
    rfl

/-- Every `some` outcome of the loop is the outcome of its final pass, which
reported no progress. -/
lemma propLoopF_last_pass : ∀ (f : Nat) (b : SudokuBoard) {b2 : SudokuBoard} {sv : Bool},
    propLoopF f b = some (some (b2, sv)) →
    ∃ bp, runPass bp = some (b2, false, sv) := by
  intro f
  induction f with
  | zero => intro b b2 sv h; rw [propLoopF] at h; exact absurd h (by simp)
  | succ f ih =>
    intro b b2 sv h
    rw [propLoopF] at h
    cases hrp : runPass b with
    | none => rw [hrp] at h; exact absurd h (by simp)
    | some r =>
      obtain ⟨b3, mp, sv3⟩ := r
      rw [hrp] at h
      cases mp with
      | true => exact ih b3 (by simpa using h)
      | false =>
        have h' : some (some (b3, sv3)) = some (some (b2, sv)) := by simpa using h
        injection h' with h'
        injection h' with h'
        injection h' with hb hs
        subst hb
        subst hs
        exact ⟨b, hrp⟩

lemma propLoopF_acc : ∀ (f : Nat) (b : SudokuBoard) {b2 : SudokuBoard} {sv : Bool},
    propLoopF f b = some (some (b2, sv)) →
    totalSize b2 ≤ totalSize b ∧ b2.length = b.length ∧
    ((∀ c ∈ b, c ≤ 511) → ∀ c ∈ b2, c ≤ 511) ∧
    (Consistent b → Consistent b2) ∧
    (∀ j k, (b2.getD j 0).testBit k = true → (b.getD j 0).testBit k = true) := by
  intro f
  induction f with
  | zero => intro b b2 sv h; rw [propLoopF] at h; exact absurd h (by simp)
  | succ f ih =>
    intro b b2 sv h
    rw [propLoopF] at h
    cases hrp : runPass b with
    | none => rw [hrp] at h; exact absurd h (by simp)
    | some r =>
      obtain ⟨b3, mp, sv3⟩ := r
      rw [hrp] at h
      have hrange : ∀ i ∈ List.range 81, i < 81 := fun i hi => List.mem_range.mp hi
      have hpass := passGo_totalSize (List.range 81) b false true hrp
      have hfr := passGo_frame (List.range 81) b false true hrp
      have hwf := passGo_wf (List.range 81) b false true hrp
      have hcons := passGo_consistent (List.range 81) b false true hrp hrange
      have hsub := passGo_subset (List.range 81) b false true hrp
      cases mp with
      | true =>
        have h' : propLoopF f b3 = some (some (b2, sv)) := by simpa using h
        obtain ⟨i1, i2, i3, i4, i5⟩ := ih b3 h'
        exact ⟨le_trans i1 hpass.1, i2.trans hfr.1, fun hc => i3 (hwf hc),
          fun hc => i4 (hcons hc), fun j k hk => hsub j k (i5 j k hk)⟩
      | false =>
        have h' : some (some (b3, sv3)) = some (some (b2, sv)) := by simpa using h
        injection h' with h'
        injection h' with h'
        injection h' with hb hs
        subst hb
        subst hs
        exact ⟨hpass.1, hfr.1, hwf, hcons, hsub⟩

lemma propagateLoop_acc {b b2 : SudokuBoard} {sv : Bool}
    (h : propagateLoop b = some (b2, sv)) :
    totalSize b2 ≤ totalSize b ∧ b2.length = b.length ∧
    ((∀ c ∈ b, c ≤ 511) → ∀ c ∈ b2, c ≤ 511) ∧
    (Consistent b → Consistent b2) ∧
    (∀ j k, (b2.getD j 0).testBit k = true → (b.getD j 0).testBit k = true) := by
  refine @propLoopF_acc (totalSize b + 1) b b2 sv ?_
  rw [propLoopF_eq_propagateLoop, h]

lemma propagateLoop_stall {b b2 : SudokuBoard} {sv : Bool}
    (h : propagateLoop b = some (b2, sv)) :
    ∀ i, i < 81 → 2 ≤ SudokuCell.size (b2.getD i 0) →
    ∀ p ∈ PEERS i, SudokuCell.size (b2.getD p 0) = 1 →
    (b2.getD i 0).testBit (SudokuCell.get_first (b2.getD p 0) - 1) = false := by
  have h' : propLoopF (totalSize b + 1) b = some (some (b2, sv)) := by
    rw [propLoopF_eq_propagateLoop, h]
  obtain ⟨bp, hbp⟩ := propLoopF_last_pass _ b h'
  intro i hi h2 p hp hsp
  exact passGo_stall (List.range 81) bp true hbp (fun j hj => List.mem_range.mp hj)
    i (List.mem_range.mpr hi) h2 p hp hsp

lemma propagateLoop_solved {b b2 : SudokuBoard} {sv : Bool}
    (h : propagateLoop b = some (b2, sv)) :
    (sv = true ↔ ∀ i, i < 81 → SudokuCell.size (b2.getD i 0) = 1) := by
  have h' : propLoopF (totalSize b + 1) b = some (some (b2, sv)) := by
    rw [propLoopF_eq_propagateLoop, h]
  obtain ⟨bp, hbp⟩ := propLoopF_last_pass _ b h'
  rw [passGo_solved (List.range 81) bp false true hbp]
  constructor
  · rintro ⟨_, hall⟩ i hi
    exact hall i (List.mem_range.mpr hi)
  · intro hall
    exact ⟨rfl, fun i hi => hall i (List.mem_range.mp hi)⟩

/-! ### The smallest-cell scan -/

lemma findSmallest_aux (b : SudokuBoard) : ∀ n : Nat,
    (((List.range n).foldl (fun acc i =>
        if 1 < SudokuCell.size (b.getD i 0) ∧ SudokuCell.size (b.getD i 0) < acc.2
        then (i, SudokuCell.size (b.getD i 0)) else acc) (0, 9) = ((0, 9) : Nat × Nat) ∧
       ∀ i, i < n → ¬(1 < SudokuCell.size (b.getD i 0) ∧ SudokuCell.size (b.getD i 0) < 9)) ∨
     (∃ j s, (List.range n).foldl (fun acc i =>
        if 1 < SudokuCell.size (b.getD i 0) ∧ SudokuCell.size (b.getD i 0) < acc.2
        then (i, SudokuCell.size (b.getD i 0)) else acc) (0, 9) = (j, s) ∧
       1 < s ∧ s < 9 ∧ j < n ∧ SudokuCell.size (b.getD j 0) = s ∧
       (∀ i, i < n → 1 < SudokuCell.size (b.getD i 0) → s ≤ SudokuCell.size (b.getD i 0)) ∧
       (∀ i, i < j → 1 < SudokuCell.size (b.getD i 0) → s < SudokuCell.size (b.getD i 0)))) := by
  intro n
  induction n with
  | zero => left; exact ⟨rfl, fun i hi => absurd hi (by omega)⟩
  | succ n ih =>
    rw [List.range_succ, List.foldl_append, List.foldl_cons, List.foldl_nil]
    rcases ih with ⟨heq, hnone⟩ | ⟨j, s, heq, h1, h9, hjn, hsz, hmin, hfirst⟩
    · rw [heq]
      by_cases hn : 1 < SudokuCell.size (b.getD n 0) ∧ SudokuCell.size (b.getD n 0) < 9
      · right
        refine ⟨n, SudokuCell.size (b.getD n 0), by rw [if_pos hn], hn.1, hn.2, by omega, rfl,
          ?_, ?_⟩
        · intro i hi hmulti
          rcases (by omega : i < n ∨ i = n) with hi' | rfl
          · have := hnone i hi'
            omega
          · omega
        · intro i hi hmulti
          have := hnone i hi
          omega
      · left
        refine ⟨by rw [if_neg hn], fun i hi => ?_⟩
        rcases (by omega : i < n ∨ i = n) with hi' | rfl
        · exact hnone i hi'
        · exact hn
    · rw [heq]
      by_cases hn : 1 < SudokuCell.size (b.getD n 0) ∧ SudokuCell.size (b.getD n 0) < s
      · right
        refine ⟨n, SudokuCell.size (b.getD n 0), by rw [if_pos hn], hn.1, by omega, by omega, rfl,
          ?_, ?_⟩
        · intro i hi hmulti
          rcases (by omega : i < n ∨ i = n) with hi' | rfl
          · have := hmin i hi' hmulti
            omega
          · omega
        · intro i hi hmulti
          have := hmin i (by omega) hmulti
          omega
      · right
        refine ⟨j, s, by rw [if_neg hn], h1, h9, by omega, hsz, ?_, hfirst⟩
        intro i hi hmulti
        rcases (by omega : i < n ∨ i = n) with hi' | rfl
        · exact hmin i hi' hmulti
        · omega

lemma findSmallest_cases (b : SudokuBoard) :
    (findSmallest b = (0, 9) ∧
       ∀ i, i < 81 → ¬(1 < SudokuCell.size (b.getD i 0) ∧ SudokuCell.size (b.getD i 0) < 9)) ∨
    (∃ j s, findSmallest b = (j, s) ∧ 1 < s ∧ s < 9 ∧ j < 81 ∧
       SudokuCell.size (b.getD j 0) = s ∧
       (∀ i, i < 81 → 1 < SudokuCell.size (b.getD i 0) → s ≤ SudokuCell.size (b.getD i 0)) ∧
       (∀ i, i < j → 1 < SudokuCell.size (b.getD i 0) → s < SudokuCell.size (b.getD i 0))) :=
  findSmallest_aux b 81

lemma findSmallest_lt (b : SudokuBoard) : (findSmallest b).1 < 81 := by
  rcases findSmallest_cases b with ⟨heq, _⟩ | ⟨j, s, heq, _, _, hj, _⟩
  · rw [heq]; omega
  · rw [heq]; exact hj

/-! ### Size bounds over the nine-digit universe -/

lemma testBit_false_of_le_511 {c k : Nat} (hc : c ≤ 511) (hk : 9 ≤ k) :
    c.testBit k = false :=
  Nat.testBit_lt_two_pow (lt_of_le_of_lt hc (by
    calc (511 : Nat) < 2 ^ 9 := by norm_num
    _ ≤ 2 ^ k := Nat.pow_le_pow_right (by norm_num) hk))

lemma size_le_nine {c : Nat} (hc : c ≤ 511) : SudokuCell.size c ≤ 9 := by
  unfold SudokuCell.size
  rw [countOnes16_eq_countP]
  have h1 : (List.range 16).countP (fun k => c.testBit k) ≤
      (List.range 16).countP (fun k => decide (k < 9)) := by
    refine List.countP_mono_left ?_
    intro k _ hk
    by_cases h9 : k < 9
    · simpa using h9
    · rw [testBit_false_of_le_511 hc (by omega)] at hk
      exact absurd hk (by simp)
  have h2 : (List.range 16).countP (fun k => decide (k < 9)) = 9 := by decide
  omega

lemma countP_lt_nine_ne {k : Nat} (hk : k < 9) :
    (List.range 16).countP (fun j => decide (j < 9 ∧ j ≠ k)) = 8 := by
  interval_cases k <;> decide

lemma size_nine_bits {c : Nat} (hc : c ≤ 511) (h9 : SudokuCell.size c = 9) :
    ∀ k, k < 9 → c.testBit k = true := by
  intro k hk
  by_contra hb
  rw [Bool.not_eq_true] at hb
  have h1 : (List.range 16).countP (fun j => c.testBit j) ≤
      (List.range 16).countP (fun j => decide (j < 9 ∧ j ≠ k)) := by
    refine List.countP_mono_left ?_
    intro j _ hj
    have hj9 : j < 9 := by
      by_contra h9'
      rw [testBit_false_of_le_511 hc (by omega)] at hj
      exact absurd hj (by simp)
    have hjk : j ≠ k := by
      intro e
      rw [e, hb] at hj
      exact absurd hj (by simp)
    simpa using ⟨hj9, hjk⟩
  rw [countP_lt_nine_ne hk] at h1
  unfold SudokuCell.size at h9
  rw [countOnes16_eq_countP] at h9
  omega

/-- A `some` pass leaves no cell with an empty candidate set. -/
lemma passGo_no_zero : ∀ (l : List Nat) (b : SudokuBoard) (mp sv : Bool)
    {b' : SudokuBoard} {mp' sv' : Bool}, passGo b mp sv l = some (b', mp', sv') →
    ∀ i ∈ l, SudokuCell.size (b'.getD i 0) ≠ 0 := by
  intro l
  induction l with
  | nil => intro b mp sv b' mp' sv' _ i hi; simp at hi
  | cons i0 rest ih =>
    intro b mp sv b' mp' sv' h i hi
    rw [passGo] at h
    have hcase : ∀ (mp1 sv1 : Bool), ¬ SudokuCell.size (passCell b i0) = 0 →
        passGo (b.set i0 (passCell b i0)) mp1 sv1 rest = some (b', mp', sv') →
        SudokuCell.size (b'.getD i 0) ≠ 0 := by
      intro mp1 sv1 h2 hrun
      rcases List.mem_cons.mp hi with rfl | hi'
      · by_cases hmem : i ∈ rest
        · exact ih _ mp1 sv1 hrun i hmem
        · rw [(passGo_frame rest _ mp1 sv1 hrun).2 i hmem,
            getD_set_self (passCell_in_range h2) _]
          exact h2
      · exact ih _ mp1 sv1 hrun i hi'
    split_ifs at h with h1 h2 h3
    · rcases List.mem_cons.mp hi with rfl | hi'
      · by_cases hmem : i ∈ rest
        · exact ih b mp sv h i hmem
        · rw [(passGo_frame rest b mp sv h).2 i hmem]
          omega
      · exact ih b mp sv h i hi'
    · exact hcase true sv h2 h
    · exact hcase mp false h2 h

lemma propagateLoop_no_zero {b b2 : SudokuBoard} {sv : Bool}
    (h : propagateLoop b = some (b2, sv)) :
    ∀ i, i < 81 → SudokuCell.size (b2.getD i 0) ≠ 0 := by
  have h' : propLoopF (totalSize b + 1) b = some (some (b2, sv)) := by
    rw [propLoopF_eq_propagateLoop, h]
  obtain ⟨bp, hbp⟩ := propLoopF_last_pass _ b h'
  intro i hi
  exact passGo_no_zero (List.range 81) bp false true hbp i (List.mem_range.mpr hi)

/-- At a stalled, still-ambiguous board, the search's chosen cell really has
at least two candidates, its count is minimal among ambiguous cells, and it is
the first cell attaining that count (row-major).  The delicate case is the
scan's `(0, 9)` default: it is only kept when no ambiguous cell has fewer than
nine candidates, and then the stall invariant forces every cell to have all
nine candidates (a fixed cell and a full cell cannot coexist at a stall). -/
lemma stall_select {b b2 : SudokuBoard} {sv : Bool}
    (h : propagateLoop b = some (b2, sv))
    (hlen : b2.length = 81) (hwf : ∀ c ∈ b2, c ≤ 511)
    (hmulti : ∃ m, m < 81 ∧ 2 ≤ SudokuCell.size (b2.getD m 0)) :
    2 ≤ SudokuCell.size (b2.getD (findSmallest b2).1 0) ∧
    (∀ i, i < 81 → 2 ≤ SudokuCell.size (b2.getD i 0) →
      SudokuCell.size (b2.getD (findSmallest b2).1 0) ≤ SudokuCell.size (b2.getD i 0)) ∧
    (∀ i, i < (findSmallest b2).1 → 2 ≤ SudokuCell.size (b2.getD i 0) →
      SudokuCell.size (b2.getD (findSmallest b2).1 0) < SudokuCell.size (b2.getD i 0)) := by
  rcases findSmallest_cases b2 with ⟨heq, hnone⟩ | ⟨j, s, heq, h1, _, hj81, hsz, hmin, hfirst⟩
  · obtain ⟨m, hm81, hm2⟩ := hmulti
    have hm9 : SudokuCell.size (b2.getD m 0) = 9 := by
      have := hnone m hm81
      have := size_le_nine (hwf (b2.getD m 0) (@getD_mem b2 m (by omega)))
      omega
    have attack : ∀ x y, x < 81 → y < 81 → SudokuCell.size (b2.getD x 0) = 9 →
        y ∈ PEERS x → SudokuCell.size (b2.getD y 0) = 1 → False := by
      intro x y hx hy hx9 hmem hy1
      obtain ⟨k, _, hbit, _, hgf⟩ := singleton_spec hy1
      have hk9 : k < 9 := by
        by_contra hk
        rw [testBit_false_of_le_511 (hwf _ (getD_mem (by omega))) (by omega)] at hbit
        exact absurd hbit (by simp)
      have hst := propagateLoop_stall h x hx (by omega) y hmem hy1
      rw [hgf, Nat.add_sub_cancel] at hst
      have hbits := size_nine_bits (hwf _ (getD_mem (by omega))) hx9 k hk9
      rw [hst] at hbits
      exact absurd hbits (by simp)
    have hno1 : ∀ y, y < 81 → SudokuCell.size (b2.getD y 0) ≠ 1 := by
      intro y hy hy1
      by_cases hshare : y / 9 = m / 9 ∨ y % 9 = m % 9
      · have hym : y ≠ m := by
          intro e; rw [e] at hy1; omega
        have hmem : y ∈ PEERS m := by
          refine (peers_mem_iff hm81).mpr ⟨hy, hym, ?_⟩
          unfold sharesUnit
          rcases hshare with h' | h'
          · exact Or.inl h'.symm
          · exact Or.inr (Or.inl h'.symm)
        exact attack m y hm81 hy hm9 hmem hy1
      · push_neg at hshare
        obtain ⟨hrow, hcol⟩ := hshare
        have hx81 : 9 * (y / 9) + m % 9 < 81 := by omega
        have hxdiv : (9 * (y / 9) + m % 9) / 9 = y / 9 := by omega
        have hxmod : (9 * (y / 9) + m % 9) % 9 = m % 9 := by omega
        have hxy : 9 * (y / 9) + m % 9 ≠ y := by omega
        have hxm : 9 * (y / 9) + m % 9 ≠ m := by omega
        have hymemx : y ∈ PEERS (9 * (y / 9) + m % 9) := by
          refine (peers_mem_iff hx81).mpr ⟨hy, fun e => hxy e.symm, ?_⟩
          unfold sharesUnit
          exact Or.inl (by omega)
        by_cases hx1 : SudokuCell.size (b2.getD (9 * (y / 9) + m % 9) 0) = 1
        · have hxmemm : (9 * (y / 9) + m % 9) ∈ PEERS m := by
            refine (peers_mem_iff hm81).mpr ⟨hx81, hxm, ?_⟩
            unfold sharesUnit
            exact Or.inr (Or.inl (by omega))
          exact attack m _ hm81 hx81 hm9 hxmemm hx1
        · have hxnz := propagateLoop_no_zero h _ hx81
          have hx9 : SudokuCell.size (b2.getD (9 * (y / 9) + m % 9) 0) = 9 := by
            have := hnone _ hx81
            have := size_le_nine
              (hwf (b2.getD (9 * (y / 9) + m % 9) 0) (@getD_mem b2 (9 * (y / 9) + m % 9) (by omega)))
            omega
          exact attack _ y hx81 hy hx9 hymemx hy1
    have hall9 : ∀ i, i < 81 → SudokuCell.size (b2.getD i 0) = 9 := by
      intro i hi
      have := hnone i hi
      have := propagateLoop_no_zero h i hi
      have := hno1 i hi
      have := size_le_nine (hwf (b2.getD i 0) (@getD_mem b2 i (by omega)))
      omega
    have hfst : (findSmallest b2).1 = 0 := by rw [heq]
    rw [hfst]
    refine ⟨by rw [hall9 0 (by omega)]; omega, ?_, ?_⟩
    · intro i hi _
      rw [hall9 0 (by omega), hall9 i hi]
    · intro i hi
      simp at hi
  · have hfst : (findSmallest b2).1 = j := by rw [heq]
    rw [hfst]
    refine ⟨by omega, ?_, ?_⟩
    · intro i hi h2
      have := hmin i hi (by omega)
      omega
    · intro i hi h2
      have := hfirst i hi (by omega)
      omega

/-! ### The backtracking search -/

lemma searchCands_some_ex : ∀ (l : List Nat) (step : SudokuBoard → Option (Option SudokuBoard))
    (b : SudokuBoard) (sc : Nat) {sol : SudokuBoard},
    searchCands step b sc l = some (some sol) →
    ∃ v ∈ l, step (b.set sc (SudokuCell.set (SudokuCell.clear (b.getD sc 0)) v)) =
      some (some sol) := by
  intro l
  induction l with
  | nil =>
    intro step b sc sol h
    rw [searchCands] at h
    exact absurd h (by simp)
  | cons v vs ih =>
    intro step b sc sol h
    rw [searchCands] at h
    cases hstep : step (b.set sc (SudokuCell.set (SudokuCell.clear (b.getD sc 0)) v)) with
    | none => rw [hstep] at h; exact absurd h (by simp)
    | some r =>
      rw [hstep] at h
      cases r with
      | none =>
        obtain ⟨w, hw, hstep'⟩ := ih step b sc h
        exact ⟨w, List.mem_cons_of_mem _ hw, hstep'⟩
      | some s =>
        have hs : s = sol := by
          have : some (some s) = some (some sol) := h
          injection this with this
          injection this
        subst hs
        exact ⟨v, List.mem_cons_self _ _, hstep⟩

lemma searchCands_ne_none : ∀ (l : List Nat) (step : SudokuBoard → Option (Option SudokuBoard))
    (b : SudokuBoard) (sc : Nat),
    (∀ v ∈ l, step (b.set sc (SudokuCell.set (SudokuCell.clear (b.getD sc 0)) v)) ≠ none) →
    searchCands step b sc l ≠ none := by
  intro l
  induction l with
  | nil => intro step b sc _; rw [searchCands]; simp
  | cons v vs ih =>
    intro step b sc hall
    rw [searchCands]
    cases hstep : step (b.set sc (SudokuCell.set (SudokuCell.clear (b.getD sc 0)) v)) with
    | none => exact absurd hstep (hall v (List.mem_cons_self _ _))
    | some r =>
      cases r with
      | none => exact ih step b sc (fun w hw => hall w (List.mem_cons_of_mem _ hw))
      | some s => simp

/-- Fixing the chosen cell to one of its remaining candidates keeps the fixed
cells peer-consistent, thanks to the stall invariant. -/
lemma branch_consistent {b b2 : SudokuBoard} {sv : Bool} {v : Nat}
    (h : propagateLoop b = some (b2, sv)) (hlen : b2.length = 81)
    (hwf : ∀ c ∈ b2, c ≤ 511)
    (hv : v ∈ SudokuCell.iter (b2.getD (findSmallest b2).1 0))
    (hcons : Consistent b2) :
    Consistent (b2.set (findSmallest b2).1
      (SudokuCell.set (SudokuCell.clear (b2.getD (findSmallest b2).1 0)) v)) := by
  rw [set_clear_eq]
  have hsc81 : (findSmallest b2).1 < 81 := findSmallest_lt b2
  have hscr : (findSmallest b2).1 < b2.length := by omega
  have hcell : b2.getD (findSmallest b2).1 0 ≤ 511 :=
    hwf _ (@getD_mem b2 (findSmallest b2).1 hscr)
  obtain ⟨hv1, hvbit⟩ := (iter_mem _ v).mp hv
  have hv9 : v ≤ 9 := (iter_le_nine hcell hv).2
  have hvlt16 : v - 1 < 16 := by omega
  have hgfv : SudokuCell.get_first (2 ^ (v - 1)) = v := get_first_two_pow hv1 (by omega)
  have hszv : SudokuCell.size (2 ^ (v - 1)) = 1 := size_two_pow hvlt16
  have hkey : ∀ p, p ∈ PEERS (findSmallest b2).1 →
      SudokuCell.size (b2.getD p 0) = 1 → SudokuCell.get_first (b2.getD p 0) ≠ v := by
    intro p hp hsp heq
    by_cases hone : SudokuCell.size (b2.getD (findSmallest b2).1 0) = 1
    · obtain ⟨k, hk16, _, huniq, hgf⟩ := singleton_spec hone
      have hvk : v - 1 = k := huniq (v - 1) hvlt16 hvbit
      have : SudokuCell.get_first (b2.getD (findSmallest b2).1 0) = v := by omega
      exact hcons _ hsc81 p hp hone hsp (by rw [this, heq])
    · have hge2 : 2 ≤ SudokuCell.size (b2.getD (findSmallest b2).1 0) := by
        have hnz : SudokuCell.size (b2.getD (findSmallest b2).1 0) ≠ 0 := by
          rw [Ne, size_zero_iff]
          intro hz
          rw [hz (v - 1) hvlt16] at hvbit
          exact absurd hvbit (by simp)
        omega
      have hst := propagateLoop_stall h _ hsc81 hge2 p hp hsp
      rw [heq] at hst
      rw [hst] at hvbit
      exact absurd hvbit (by simp)
  intro x hx p hp hsx hsp
  by_cases hxs : x = (findSmallest b2).1
  · subst hxs
    have hpne : p ≠ (findSmallest b2).1 := peers_ne hx hp
    rw [getD_set_self hscr] at hsx ⊢
    rw [getD_set_ne hpne] at hsp ⊢
    rw [hgfv]
    exact fun e => hkey p hp hsp e.symm
  · by_cases hps : p = (findSmallest b2).1
    · subst hps
      rw [getD_set_ne hxs] at hsx ⊢
      rw [getD_set_self hscr] at hsp ⊢
      rw [hgfv]
      have hxp : x ∈ PEERS (findSmallest b2).1 := peers_symm hx hsc81 hp
      exact hkey x hxp hsx
    · rw [getD_set_ne hxs] at hsx ⊢
      rw [getD_set_ne hps] at hsp ⊢
      exact hcons x hx p hp hsx hsp

lemma not_solved_multi {b b2 : SudokuBoard} {sv : Bool}
    (hpl : propagateLoop b = some (b2, sv)) (hsv : sv = false) :
    ∃ m, m < 81 ∧ 2 ≤ SudokuCell.size (b2.getD m 0) := by
  have hns : ¬ ∀ i, i < 81 → SudokuCell.size (b2.getD i 0) = 1 := by
    rw [← propagateLoop_solved hpl, hsv]
    simp
  push_neg at hns
  obtain ⟨i, hi, hne⟩ := hns
  have := propagateLoop_no_zero hpl i hi
  exact ⟨i, hi, by omega⟩

lemma branch_board_wf {b2 : SudokuBoard} {sc v : Nat} (hlen : b2.length = 81)
    (hwf : ∀ c ∈ b2, c ≤ 511) (hv9 : v ≤ 9) :
    (b2.set sc (SudokuCell.set (SudokuCell.clear (b2.getD sc 0)) v)).length = 81 ∧
    ∀ c ∈ b2.set sc (SudokuCell.set (SudokuCell.clear (b2.getD sc 0)) v), c ≤ 511 := by
  rw [set_clear_eq]
  refine ⟨by simpa using hlen, ?_⟩
  intro c hc
  rcases List.mem_or_eq_of_mem_set hc with hc | rfl
  · exact hwf c hc
  · calc (2 : Nat) ^ (v - 1) ≤ 2 ^ 8 := Nat.pow_le_pow_right (by norm_num) (by omega)
    _ ≤ 511 := by norm_num

lemma branch_board_totalSize {b2 : SudokuBoard} {sc v : Nat} (hsc : sc < b2.length)
    (h2 : 2 ≤ SudokuCell.size (b2.getD sc 0)) (hv16 : v - 1 < 16) :
    totalSize (b2.set sc (SudokuCell.set (SudokuCell.clear (b2.getD sc 0)) v)) <
      totalSize b2 := by
  rw [set_clear_eq]
  have := totalSize_set hsc ((2 : Nat) ^ (v - 1))
  rw [size_two_pow hv16] at this
  omega

/-- Fuel sufficiency: `totalSize` strictly decreases into every recursive
call, so `totalSize b` extra turns of fuel never run out. -/
lemma trySolveF_ne_none : ∀ (f : Nat) (b : SudokuBoard), b.length = 81 →
    (∀ c ∈ b, c ≤ 511) → totalSize b < f → trySolveF f b ≠ none := by
  intro f
  induction f with
  | zero => intro b _ _ h; omega
  | succ f ih =>
    intro b hlen hwf hf
    rw [trySolveF]
    cases hpl : propagateLoop b with
    | none => simp
    | some r =>
      obtain ⟨b2, sv⟩ := r
      cases sv with
      | true => simp
      | false =>
        simp only
        obtain ⟨hts, hlen2, hwf2, _, _⟩ := propagateLoop_acc hpl
        have hlen2' : b2.length = 81 := by omega
        have hwf2' := hwf2 hwf
        have hmulti := not_solved_multi hpl rfl
        obtain ⟨hsel2, _, _⟩ := stall_select hpl hlen2' hwf2' hmulti
        refine searchCands_ne_none _ _ _ _ ?_
        intro v hv
        have hscr : (findSmallest b2).1 < b2.length := by
          have := findSmallest_lt b2
          omega
        have hcell : b2.getD (findSmallest b2).1 0 ≤ 511 :=
          hwf2' _ (@getD_mem b2 (findSmallest b2).1 hscr)
        have hv9 := (iter_le_nine hcell hv).2
        obtain ⟨hblen, hbwf⟩ := branch_board_wf hlen2' hwf2' hv9
        have hbts := @branch_board_totalSize b2 (findSmallest b2).1 v hscr hsel2 (by omega)
        exact ih _ hblen hbwf (by omega)

/-- Soundness of the fueled solver: a `Some` result is an 81-cell board of
fixed cells over the nine-digit universe, peer-consistency of the fixed cells
is carried from input to output, and every output cell is a sub-set of the
corresponding input cell. -/
lemma trySolveF_sound : ∀ (f : Nat) (b : SudokuBoard) {sol : SudokuBoard},
    b.length = 81 → (∀ c ∈ b, c ≤ 511) → trySolveF f b = some (some sol) →
    sol.length = 81 ∧ (∀ c ∈ sol, c ≤ 511) ∧
    (∀ i, i < 81 → SudokuCell.size (sol.getD i 0) = 1) ∧
    (Consistent b → Consistent sol) ∧
    (∀ j k, (sol.getD j 0).testBit k = true → (b.getD j 0).testBit k = true) := by
  intro f
  induction f with
  | zero =>
    intro b sol _ _ h
    rw [trySolveF] at h
    exact absurd h (by simp)
  | succ f ih =>
    intro b sol hlen hwf h
    rw [trySolveF] at h
    cases hpl : propagateLoop b with
    | none =>
      rw [hpl] at h
      exact absurd h (by simp)
    | some r =>
      obtain ⟨b2, sv⟩ := r
      rw [hpl] at h
      obtain ⟨hts, hlen2, hwf2, hcons2, hsub2⟩ := propagateLoop_acc hpl
      have hlen2' : b2.length = 81 := by omega
      have hwf2' := hwf2 hwf
      cases sv with
      | true =>
        have hsol : b2 = sol := by
          have : some (some b2) = some (some sol) := h
          injection this with this
          injection this
        subst hsol
        exact ⟨hlen2', hwf2', fun i hi => (propagateLoop_solved hpl).mp rfl i hi,
          hcons2, hsub2⟩
      | false =>
        simp only at h
        obtain ⟨v, hv, hstep⟩ := searchCands_some_ex _ _ _ _ h
        have hscr : (findSmallest b2).1 < b2.length := by
          have := findSmallest_lt b2
          omega
        have hcell : b2.getD (findSmallest b2).1 0 ≤ 511 :=
          hwf2' _ (@getD_mem b2 (findSmallest b2).1 hscr)
        have hv9 := (iter_le_nine hcell hv).2
        obtain ⟨hblen, hbwf⟩ := branch_board_wf hlen2' hwf2' hv9
        obtain ⟨s1, s2, s3, s4, s5⟩ := ih _ hblen hbwf hstep
        refine ⟨s1, s2, s3, ?_, ?_⟩
        · intro hc
          exact s4 (branch_consistent hpl hlen2' hwf2' hv (hcons2 hc))
        · intro j k hk
          have hk3 := s5 j k hk
          refine hsub2 j k ?_
          by_cases hjs : j = (findSmallest b2).1
          · subst hjs
            rw [getD_set_self hscr, set_clear_eq] at hk3
            rw [Nat.testBit_two_pow] at hk3
            have : v - 1 = k := of_decide_eq_true hk3
            rw [← this]
            exact ((iter_mem _ v).mp hv).2
          · rwa [getD_set_ne hjs] at hk3

/-! ### The board codec -/

lemma getD_eq_getElem_of_lt {b : SudokuBoard} {i : Nat} (h : i < b.length) :
    b.getD i 0 = b[i] := by
  rw [List.getD_eq_getElem?_getD, List.getElem?_eq_getElem h]
  rfl

lemma load_board_fold : ∀ (s : List Char) (acc : SudokuBoard × Nat),
    s.foldl (fun (acc : SudokuBoard × Nat) c =>
      if c = '0' ∨ c = '.' then (acc.1 ++ [SudokuCell.new_all_set], acc.2 + 1)
      else if c ∈ ['1', '2', '3', '4', '5', '6', '7', '8', '9'] then
        (acc.1 ++ [SudokuCell.set SudokuCell.new (c.toNat - 48)], acc.2 + 1)
      else acc) acc =
    (acc.1 ++ (s.filter recognizedChar).map charCell,
      acc.2 + (s.filter recognizedChar).length) := by
  intro s
  induction s with
  | nil => intro acc; simp
  | cons c s ih =>
    intro acc
    rw [List.foldl_cons]
    by_cases h0 : c = '0' ∨ c = '.'
    · have hrec : recognizedChar c = true := by
        unfold recognizedChar
        rw [Bool.or_eq_true]
        exact Or.inl (decide_eq_true h0)
      have hcc : charCell c = SudokuCell.new_all_set := by
        unfold charCell
        rw [if_pos h0]
      rw [if_pos h0, ih, List.filter_cons_of_pos hrec]
      simp [hcc]
      omega
    · by_cases h1 : c ∈ ['1', '2', '3', '4', '5', '6', '7', '8', '9']
      · have hrec : recognizedChar c = true := by
          unfold recognizedChar
          rw [Bool.or_eq_true]
          exact Or.inr (decide_eq_true h1)
        have hcc : charCell c = SudokuCell.set SudokuCell.new (c.toNat - 48) := by
          unfold charCell
          rw [if_neg h0]
        rw [if_neg h0, if_pos h1, ih, List.filter_cons_of_pos hrec]
        simp [hcc]
        omega
      · have hrec : recognizedChar c = false := by
          unfold recognizedChar
          rw [Bool.or_eq_false_iff]
          exact ⟨decide_eq_false h0, decide_eq_false h1⟩
        rw [if_neg h0, if_neg h1, ih, List.filter_cons_of_neg (by rw [hrec]; simp)]

lemma load_board_eq (s : List Char) :
    load_board s = if (s.filter recognizedChar).length = 81
      then some ((s.filter recognizedChar).map charCell) else none := by
  unfold load_board
  rw [load_board_fold s ([], 0)]
  simp

lemma digit_roundtrip : ∀ c ∈ ['1', '2', '3', '4', '5', '6', '7', '8', '9'],
    recognizedChar c = true ∧
    Char.ofNat (SudokuCell.get_first (charCell c) + 48) = c := by
  intro c hc
  fin_cases hc <;> exact ⟨rfl, rfl⟩

lemma serialize_load_digits (s : List Char) (hlen : s.length = 81)
    (hdig : ∀ c ∈ s, c ∈ ['1', '2', '3', '4', '5', '6', '7', '8', '9']) :
    load_board s = some (s.map charCell) ∧ serialize_board (s.map charCell) = s := by
  have hfil : s.filter recognizedChar = s :=
    List.filter_eq_self.mpr (fun c hc => (digit_roundtrip c (hdig c hc)).1)
  constructor
  · rw [load_board_eq, hfil, hlen]
    simp
  · unfold serialize_board
    refine List.ext_getElem (by simp [hlen]) ?_
    intro i h1 h2
    rw [List.getElem_map, List.getElem_range]
    have hi81 : i < 81 := by simpa using h1
    have hilen : i < (s.map charCell).length := by
      rw [List.length_map, hlen]
      exact hi81
    rw [getD_eq_getElem_of_lt hilen, List.getElem_map]
    exact (digit_roundtrip s[i] (hdig s[i] (List.getElem_mem _))).2

lemma try_solve_eq_some {b sol : SudokuBoard} (hlen : b.length = 81)
    (hwf : ∀ c ∈ b, c ≤ 511) (h : try_solve b = some sol) :
    trySolveF (totalSize b + 1) b = some (some sol) := by
  unfold try_solve at h
  cases hT : trySolveF (totalSize b + 1) b with
  | none => exact absurd hT (trySolveF_ne_none _ b hlen hwf (by omega))
  | some r =>
    rw [hT] at h
    have hr : r = some sol := by simpa using h
    rw [hr]

/-! ### The claims -/

/-- Claim C6: for every cell index in `[0, 81)`, the peer table entry contains
exactly 20 distinct indices — precisely the other cells sharing the row,
column, or 3×3 block. -/
theorem claim_C6 : ∀ i, i < 81 → (PEERS i).length = 20 ∧ (PEERS i).Nodup ∧
    (∀ j, j ∈ PEERS i ↔ (j < 81 ∧ j ≠ i ∧ sharesUnit i j)) := by
  intro i hi
  obtain ⟨h1, h2, h3, h4⟩ := peers_spec i hi
  exact ⟨h1, h2, fun j => ⟨fun h => h3 j h, fun ⟨ha, hb, hc⟩ => h4 j ha hb hc⟩⟩

theorem claim_C6_witness : (PEERS 40).length = 20 ∧ (PEERS 40).Nodup ∧
    (∀ j, j ∈ PEERS 40 ↔ (j < 81 ∧ j ≠ 40 ∧ sharesUnit 40 j)) :=
  claim_C6 40 (by decide)

/-- Claim C7: parsing maps `'0'`/`'.'` to a full candidate set and `'1'`-`'9'`
to the singleton of that digit, ignores every other character, and returns a
board exactly when the scan yields 81 recognized cells — otherwise it fails
(the Rust `panic!`, modelled as `none`), and it never pads or truncates. -/
theorem claim_C7 :
    (∀ s : List Char, load_board s =
      if (s.filter recognizedChar).length = 81
      then some ((s.filter recognizedChar).map charCell) else none) ∧
    (∀ c : Char, recognizedChar c = true ↔
      (c = '0' ∨ c = '.' ∨ c ∈ ['1', '2', '3', '4', '5', '6', '7', '8', '9'])) ∧
    (∀ c : Char, (c = '0' ∨ c = '.') → charCell c = SudokuCell.new_all_set) ∧
    (∀ c ∈ ['1', '2', '3', '4', '5', '6', '7', '8', '9'],
      SudokuCell.size (charCell c) = 1 ∧
      SudokuCell.get_first (charCell c) = c.toNat - 48) ∧
    (∀ s : List Char, (load_board s).isSome ↔ (s.filter recognizedChar).length = 81) ∧
    (∀ s : List Char, ∀ b, load_board s = some b → b.length = 81) := by
  refine ⟨load_board_eq, ?_, ?_, ?_, ?_, ?_⟩
  · intro c
    unfold recognizedChar
    rw [Bool.or_eq_true, decide_eq_true_eq, decide_eq_true_eq, or_assoc]
  · intro c hc
    unfold charCell
    rw [if_pos hc]
  · intro c hc
    fin_cases hc <;> exact ⟨by decide, by decide⟩
  · intro s
    rw [load_board_eq]
    by_cases h : (s.filter recognizedChar).length = 81
    · simp [h]
    · simp [h]
  · intro s b hb
    rw [load_board_eq] at hb
    by_cases h : (s.filter recognizedChar).length = 81
    · rw [if_pos h] at hb
      have : (s.filter recognizedChar).map charCell = b := by simpa using hb
      rw [← this, List.length_map]
      exact h
    · rw [if_neg h] at hb
      exact absurd hb (by simp)

theorem claim_C7_witness : load_board ['5', '.', 'x'] = none := by
  rw [claim_C7.1 ['5', '.', 'x']]
  decide

/-- Claim C8: `serialize ∘ parse` is the identity on fully-given 81-character
digit strings representing a valid (peer-consistent) solution. -/
theorem claim_C8 (s : List Char) (hlen : s.length = 81)
    (hdig : ∀ c ∈ s, c ∈ ['1', '2', '3', '4', '5', '6', '7', '8', '9'])
    (_hvalid : ∀ b, load_board s = some b → Consistent b) :
    (load_board s).map serialize_board = some s := by
  obtain ⟨hload, hser⟩ := serialize_load_digits s hlen hdig
  rw [hload]
  simp [hser]

theorem claim_C8_witness :
    (load_board ("534678912672195348198342567859761423426853791713924856961537284287419635345286179".toList)).map
      serialize_board =
    some ("534678912672195348198342567859761423426853791713924856961537284287419635345286179".toList) :=
  claim_C8 _ (by decide) (by decide) (by
    intro b hb
    have h1 : Consistent ((load_board
      ("534678912672195348198342567859761423426853791713924856961537284287419635345286179".toList)).getD []) := by
      decide
    rw [hb] at h1
    exact h1)

/-- Claim C1, counterexample to the unrestricted statement: on the board whose
81 cells are all already fixed to the digit 2, `try_solve` returns the board
as solved although the peer cells 0 and 1 hold the same digit. -/
theorem claim_C1_counterexample :
    try_solve (List.replicate 81 2) = some (List.replicate 81 2) ∧
    1 ∈ PEERS 0 ∧
    SudokuCell.size ((List.replicate 81 2 : SudokuBoard).getD 0 0) = 1 ∧
    SudokuCell.size ((List.replicate 81 2 : SudokuBoard).getD 1 0) = 1 ∧
    SudokuCell.get_first ((List.replicate 81 2 : SudokuBoard).getD 0 0) =
      SudokuCell.get_first ((List.replicate 81 2 : SudokuBoard).getD 1 0) :=
  ⟨by decide, by decide, by decide, by decide, by decide⟩

/-- Claim C1 (amended): for every 81-cell board over the nine-digit universe
whose already-fixed cells are pairwise peer-consistent, a board returned as
solved by `try_solve` has exactly one candidate digit in every cell, and the
singleton digits of any two peer cells differ. -/
theorem claim_C1 (b : SudokuBoard) (hlen : b.length = 81)
    (hwf : ∀ c ∈ b, c ≤ 511) (hcons : Consistent b) {sol : SudokuBoard}
    (h : try_solve b = some sol) :
    (∀ i, i < 81 → SudokuCell.size (sol.getD i 0) = 1) ∧
    (∀ i, i < 81 → ∀ p ∈ PEERS i,
      SudokuCell.get_first (sol.getD i 0) ≠ SudokuCell.get_first (sol.getD p 0)) := by
  have hF := try_solve_eq_some hlen hwf h
  obtain ⟨_, _, hall1, hconsS, _⟩ := trySolveF_sound _ b hlen hwf hF
  have hcs := hconsS hcons
  exact ⟨hall1, fun i hi p hp =>
    hcs i hi p hp (hall1 i hi) (hall1 p (peers_lt hi hp))⟩

theorem claim_C1_witness :
    (∀ i, i < 81 → SudokuCell.size (((load_board
      ("534678912672195348198342567859761423426853791713924856961537284287419635345286179".toList)).getD
        []).getD i 0) = 1) ∧
    (∀ i, i < 81 → ∀ p ∈ PEERS i,
      SudokuCell.get_first (((load_board
        ("534678912672195348198342567859761423426853791713924856961537284287419635345286179".toList)).getD
          []).getD i 0) ≠
      SudokuCell.get_first (((load_board
        ("534678912672195348198342567859761423426853791713924856961537284287419635345286179".toList)).getD
          []).getD p 0)) :=
  @claim_C1 ((load_board
      ("534678912672195348198342567859761423426853791713924856961537284287419635345286179".toList)).getD [])
    (by decide) (by decide) (by decide)
    ((load_board
      ("534678912672195348198342567859761423426853791713924856961537284287419635345286179".toList)).getD [])
    (by decide)

/-- Claim C4: the spec requires a fully-given board that violates the
peer-uniqueness rule to be reported UNSOLVABLE; the code instead accepts it.
On the 81-character string of all `'1'`s, parsing succeeds with every cell
fixed, the board is not peer-consistent, yet `try_solve` returns it as
solved rather than `None`. -/
theorem claim_C4_code_bug :
    load_board (List.replicate 81 '1') = some (List.replicate 81 1) ∧
    (∀ i, i < 81 → SudokuCell.size ((List.replicate 81 1 : SudokuBoard).getD i 0) = 1) ∧
    ¬ Consistent (List.replicate 81 1) ∧
    try_solve (List.replicate 81 1) = some (List.replicate 81 1) :=
  ⟨by decide, by decide, by decide, by decide⟩

/-- Claim C9: if a full propagation pass leaves the board unchanged, that pass
reported no progress, and the whole propagation loop returns this board at
once — running it again changes nothing and again reports no progress. -/
theorem claim_C9 (b : SudokuBoard) {mp sv : Bool} (h : runPass b = some (b, mp, sv)) :
    mp = false ∧ runPass b = some (b, false, sv) ∧ propagateLoop b = some (b, sv) := by
  have hmp : mp = false := by
    cases hm : mp with
    | false => rfl
    | true =>
      have hts := passGo_totalSize (List.range 81) b false true h
      rcases hts.2 hm with h' | h'
      · exact absurd h' (by simp)
      · omega
  subst hmp
  refine ⟨rfl, h, ?_⟩
  unfold propagateLoop
  rw [propLoopF, h]
  rfl

theorem claim_C9_witness :
    (false : Bool) = false ∧
    runPass (List.replicate 81 511) = some (List.replicate 81 511, false, false) ∧
    propagateLoop (List.replicate 81 511) = some (List.replicate 81 511, false) :=
  @claim_C9 (List.replicate 81 511) false false (by decide)

/-- Claim C10: candidate sets only ever shrink, so every cell of a solved
board holds a digit that was among that cell's candidates in the input board;
in particular every given (already fixed) cell keeps its digit. -/
theorem claim_C10 (b : SudokuBoard) (hlen : b.length = 81)
    (hwf : ∀ c ∈ b, c ≤ 511) {sol : SudokuBoard} (h : try_solve b = some sol) :
    (∀ j k, (sol.getD j 0).testBit k = true → (b.getD j 0).testBit k = true) ∧
    (∀ i, i < 81 → SudokuCell.get (b.getD i 0) (SudokuCell.get_first (sol.getD i 0)) = true) ∧
    (∀ i, i < 81 → SudokuCell.size (b.getD i 0) = 1 →
      SudokuCell.get_first (sol.getD i 0) = SudokuCell.get_first (b.getD i 0)) := by
  have hF := try_solve_eq_some hlen hwf h
  obtain ⟨_, _, hall1, _, hsub⟩ := trySolveF_sound _ b hlen hwf hF
  have hget : ∀ i, i < 81 →
      SudokuCell.get (b.getD i 0) (SudokuCell.get_first (sol.getD i 0)) = true := by
    intro i hi
    rw [get_eq_testBit]
    exact hsub i _ (singleton_get_first_mem (hall1 i hi))
  refine ⟨hsub, hget, ?_⟩
  intro i hi h1
  obtain ⟨kb, hkb16, _, huniq, hgfb⟩ := singleton_spec h1
  obtain ⟨ks, hks16, _, _, hgfs⟩ := singleton_spec (hall1 i hi)
  have hb : (b.getD i 0).testBit ks = true := by
    have := hget i hi
    rw [get_eq_testBit, hgfs, Nat.add_sub_cancel] at this
    exact this
  have : ks = kb := huniq ks hks16 hb
  omega

theorem claim_C10_witness :
    (∀ j k, (((load_board
      ("534678912672195348198342567859761423426853791713924856961537284287419635345286179".toList)).getD
        []).getD j 0).testBit k = true →
      (((load_board
        ("534678912672195348198342567859761423426853791713924856961537284287419635345286179".toList)).getD
          []).getD j 0).testBit k = true) ∧
    (∀ i, i < 81 → SudokuCell.get (((load_board
      ("534678912672195348198342567859761423426853791713924856961537284287419635345286179".toList)).getD
        []).getD i 0)
      (SudokuCell.get_first (((load_board
        ("534678912672195348198342567859761423426853791713924856961537284287419635345286179".toList)).getD
          []).getD i 0)) = true) ∧
    (∀ i, i < 81 → SudokuCell.size (((load_board
      ("534678912672195348198342567859761423426853791713924856961537284287419635345286179".toList)).getD
        []).getD i 0) = 1 →
      SudokuCell.get_first (((load_board
        ("534678912672195348198342567859761423426853791713924856961537284287419635345286179".toList)).getD
          []).getD i 0) =
      SudokuCell.get_first (((load_board
        ("534678912672195348198342567859761423426853791713924856961537284287419635345286179".toList)).getD
          []).getD i 0)) :=
  @claim_C10 ((load_board
      ("534678912672195348198342567859761423426853791713924856961537284287419635345286179".toList)).getD [])
    (by decide) (by decide)
    ((load_board
      ("534678912672195348198342567859761423426853791713924856961537284287419635345286179".toList)).getD [])
    (by decide)

/-- Claim C2: one propagation pass skips already-fixed cells; otherwise it
subtracts from the cell the union of the digits of its fixed peers; a
resulting count of 0 aborts the whole solve with UNSOLVABLE, a count of 1
records progress, a count of 2 or more clears the `solved` flag; a pass with
zero progress ends the loop, reporting SOLVED exactly when every cell has
count 1, and otherwise handing the stalled board to the search. -/
theorem claim_C2 :
    (∀ (b : SudokuBoard) (mp sv : Bool) (i : Nat) (rest : List Nat),
      SudokuCell.size (b.getD i 0) = 1 →
      passGo b mp sv (i :: rest) = passGo b mp sv rest) ∧
    (∀ (b : SudokuBoard) (i : Nat),
      passCell b i = SudokuCell.remove_all (b.getD i 0) (peer_values b i)) ∧
    (∀ (b : SudokuBoard) (i k : Nat), k < 16 →
      ((peer_values b i).testBit k = true ↔
        ∃ p ∈ PEERS i, SudokuCell.size (b.getD p 0) = 1 ∧
          SudokuCell.get_first (b.getD p 0) = k + 1)) ∧
    (∀ (b : SudokuBoard) (mp sv : Bool) (i : Nat) (rest : List Nat),
      ¬ SudokuCell.size (b.getD i 0) = 1 → SudokuCell.size (passCell b i) = 0 →
      passGo b mp sv (i :: rest) = none) ∧
    (∀ (b : SudokuBoard) (f : Nat), propagateLoop b = none →
      trySolveF (f + 1) b = some none ∧ try_solve b = none) ∧
    (∀ (b : SudokuBoard) (mp sv : Bool) (i : Nat) (rest : List Nat),
      ¬ SudokuCell.size (b.getD i 0) = 1 → SudokuCell.size (passCell b i) = 1 →
      passGo b mp sv (i :: rest) = passGo (b.set i (passCell b i)) true sv rest) ∧
    (∀ (b : SudokuBoard) (mp sv : Bool) (i : Nat) (rest : List Nat),
      ¬ SudokuCell.size (b.getD i 0) = 1 → 2 ≤ SudokuCell.size (passCell b i) →
      passGo b mp sv (i :: rest) = passGo (b.set i (passCell b i)) mp false rest) ∧
    (∀ (b b2 : SudokuBoard) (sv : Bool), propagateLoop b = some (b2, sv) →
      (sv = true ↔ ∀ i, i < 81 → SudokuCell.size (b2.getD i 0) = 1)) ∧
    (∀ (b b2 : SudokuBoard) (f : Nat), propagateLoop b = some (b2, true) →
      trySolveF (f + 1) b = some (some b2)) ∧
    (∀ (b b2 : SudokuBoard) (f : Nat), propagateLoop b = some (b2, false) →
      trySolveF (f + 1) b = searchCands (trySolveF f) b2 (findSmallest b2).1
        (SudokuCell.iter (b2.getD (findSmallest b2).1 0))) := by
  refine ⟨?_, fun b i => rfl, fun b i k hk => peer_values_testBit b i k hk,
    ?_, ?_, ?_, ?_, fun b b2 sv h => propagateLoop_solved h, ?_, ?_⟩
  · intro b mp sv i rest h1
    rw [passGo, if_pos h1]
  · intro b mp sv i rest h1 h2
    rw [passGo, if_neg h1, if_pos h2]
  · intro b f hpl
    constructor
    · rw [trySolveF, hpl]
    · unfold try_solve
      rw [trySolveF, hpl]
      rfl
  · intro b mp sv i rest h1 h2
    rw [passGo, if_neg h1, if_neg (by omega), if_pos h2]
  · intro b mp sv i rest h1 h2
    rw [passGo, if_neg h1, if_neg (by omega), if_neg (by omega)]
  · intro b b2 f hpl
    rw [trySolveF, hpl]
    rfl
  · intro b b2 f hpl
    rw [trySolveF, hpl]
    rfl

theorem claim_C2_witness :
    passGo (List.replicate 81 1) false true (0 :: [1, 2]) =
      passGo (List.replicate 81 1) false true [1, 2] :=
  claim_C2.1 (List.replicate 81 1) false true 0 [1, 2] (by decide)

/-- Claim C3: when propagation stalls while ambiguity remains, the search
branches on the cell with the smallest candidate count above 1, ties broken
by first occurrence in row-major order; the candidates of that cell are tried
in ascending digit order, each on a fresh copy of the board with the chosen
cell fixed to exactly that digit; the first solved attempt is returned at
once, and only when every candidate has failed is UNSOLVABLE reported. -/
theorem claim_C3 (b b2 : SudokuBoard) (hlen : b2.length = 81)
    (hwf : ∀ c ∈ b2, c ≤ 511) (hpl : propagateLoop b = some (b2, false)) :
    (2 ≤ SudokuCell.size (b2.getD (findSmallest b2).1 0) ∧
     (∀ i, i < 81 → 2 ≤ SudokuCell.size (b2.getD i 0) →
       SudokuCell.size (b2.getD (findSmallest b2).1 0) ≤ SudokuCell.size (b2.getD i 0)) ∧
     (∀ i, i < (findSmallest b2).1 → 2 ≤ SudokuCell.size (b2.getD i 0) →
       SudokuCell.size (b2.getD (findSmallest b2).1 0) < SudokuCell.size (b2.getD i 0))) ∧
    (∀ f, trySolveF (f + 1) b = searchCands (trySolveF f) b2 (findSmallest b2).1
       (SudokuCell.iter (b2.getD (findSmallest b2).1 0))) ∧
    List.Pairwise (· < ·) (SudokuCell.iter (b2.getD (findSmallest b2).1 0)) ∧
    (∀ v, v ∈ SudokuCell.iter (b2.getD (findSmallest b2).1 0) ↔
      (1 ≤ v ∧ (b2.getD (findSmallest b2).1 0).testBit (v - 1) = true)) ∧
    (∀ (step : SudokuBoard → Option (Option SudokuBoard)) (b' : SudokuBoard)
       (sc v : Nat) (vs : List Nat) (sol : SudokuBoard),
      step (b'.set sc (SudokuCell.set (SudokuCell.clear (b'.getD sc 0)) v)) =
        some (some sol) →
      searchCands step b' sc (v :: vs) = some (some sol)) ∧
    (∀ (step : SudokuBoard → Option (Option SudokuBoard)) (b' : SudokuBoard)
       (sc v : Nat) (vs : List Nat),
      step (b'.set sc (SudokuCell.set (SudokuCell.clear (b'.getD sc 0)) v)) = some none →
      searchCands step b' sc (v :: vs) = searchCands step b' sc vs) ∧
    (∀ (step : SudokuBoard → Option (Option SudokuBoard)) (b' : SudokuBoard) (sc : Nat),
      searchCands step b' sc ([] : List Nat) = some none) := by
  refine ⟨stall_select hpl hlen hwf (not_solved_multi hpl rfl), ?_,
    iter_sorted _, fun v => iter_mem _ v, ?_, ?_, fun step b' sc => rfl⟩
  · intro f
    rw [trySolveF, hpl]
    rfl
  · intro step b' sc v vs sol hstep
    rw [searchCands, hstep]
  · intro step b' sc v vs hstep
    rw [searchCands, hstep]

theorem claim_C3_witness :
    2 ≤ SudokuCell.size ((List.replicate 81 511 : SudokuBoard).getD
      (findSmallest (List.replicate 81 511)).1 0) :=
  (claim_C3 (List.replicate 81 511) (List.replicate 81 511)
    (by decide) (by decide) (by decide)).1.1

/-- Claim C5: the solver terminates on every 81-cell board over the
nine-digit universe: the total remaining ambiguity strictly decreases into
every recursive search call, so `totalSize b` extra turns of fuel always
suffice for the fueled solver, and `try_solve` is that sufficiently-fueled
run. -/
theorem claim_C5 (b : SudokuBoard) (hlen : b.length = 81)
    (hwf : ∀ c ∈ b, c ≤ 511) :
    (∀ f, totalSize b < f → trySolveF f b ≠ none) ∧
    trySolveF (totalSize b + 1) b ≠ none ∧
    try_solve b = (trySolveF (totalSize b + 1) b).getD none ∧
    (∀ (b2 : SudokuBoard) (sv : Bool) (v : Nat), propagateLoop b = some (b2, sv) →
      sv = false → v ∈ SudokuCell.iter (b2.getD (findSmallest b2).1 0) →
      totalSize (b2.set (findSmallest b2).1
        (SudokuCell.set (SudokuCell.clear (b2.getD (findSmallest b2).1 0)) v)) <
        totalSize b) := by
  refine ⟨fun f hf => trySolveF_ne_none f b hlen hwf hf,
    trySolveF_ne_none _ b hlen hwf (by omega), rfl, ?_⟩
  intro b2 sv v hpl hsv hv
  subst hsv
  obtain ⟨hts, hlen2, hwf2, _, _⟩ := propagateLoop_acc hpl
  have hlen2' : b2.length = 81 := by omega
  have hwf2' := hwf2 hwf
  obtain ⟨hsel2, _, _⟩ := stall_select hpl hlen2' hwf2' (not_solved_multi hpl rfl)
  have hscr : (findSmallest b2).1 < b2.length := by
    have := findSmallest_lt b2
    omega
  have hcell : b2.getD (findSmallest b2).1 0 ≤ 511 :=
    hwf2' _ (@getD_mem b2 (findSmallest b2).1 hscr)
  have hv9 := (iter_le_nine hcell hv).2
  have := @branch_board_totalSize b2 (findSmallest b2).1 v hscr hsel2 (by omega)
  omega

theorem claim_C5_witness :
    (∀ f, totalSize (List.replicate 81 511) < f →
      trySolveF f (List.replicate 81 511) ≠ none) ∧
    trySolveF (totalSize (List.replicate 81 511) + 1) (List.replicate 81 511) ≠ none ∧
    try_solve (List.replicate 81 511) =
      (trySolveF (totalSize (List.replicate 81 511) + 1) (List.replicate 81 511)).getD none ∧
    (∀ (b2 : SudokuBoard) (sv : Bool) (v : Nat),
      propagateLoop (List.replicate 81 511) = some (b2, sv) → sv = false →
      v ∈ SudokuCell.iter (b2.getD (findSmallest b2).1 0) →
      totalSize (b2.set (findSmallest b2).1
        (SudokuCell.set (SudokuCell.clear (b2.getD (findSmallest b2).1 0)) v)) <
        totalSize (List.replicate 81 511)) :=
  claim_C5 (List.replicate 81 511) (by decide) (by decide)
